import Mathlib

/-!
# Verification of the pcritical critical-path tool

A shallow embedding of the core of `pcritical.go` (the self-contained
variant of the tool: inline memory/disk caches, `zgr`-style graph).
Go strings that carry package identities or attribute values are
modelled as `List Char`; the numeric part of a node id `"N%d"` is
modelled by the numeric index itself (the formatting is injective and
never inspected).  The `zgr` graph library is external to the
repository; its data model (nodes with labels, directed edges carried
in insertion order, string attribute maps) is modelled from the spec
(sections 3 and 4.4 of the specification).
-/

namespace Pcritical

/-- A Go string (package identity, attribute value, label). -/
abbrev GoStr := List Char

/-! ## Decimal formatting and scanning

Models of `fmt.Sprintf "%d"` (used by `computeEdgeWeights` to store an
edge weight in the `label` attribute) and `fmt.Sscanf "%d"` (used by
`EdgeWeight` to read it back). -/

/-- One decimal digit to its character. -/
def digitChar (d : Nat) : Char := Char.ofNat (48 + d)

/-- A character back to a decimal digit, when it is one. -/
def charDigit (c : Char) : Option Nat :=
  if 48 ≤ c.toNat ∧ c.toNat ≤ 57 then some (c.toNat - 48) else none

/-- Auxiliary decimal formatter with explicit fuel. -/
def formatDecAux : Nat → Nat → GoStr
  | 0, _ => []
  | fuel + 1, n =>
    if n < 10 then [digitChar n]
    else formatDecAux fuel (n / 10) ++ [digitChar (n % 10)]

/-- Model of `fmt.Sprintf "%d"` on a natural number. -/
def formatDec (n : Nat) : GoStr := formatDecAux (n + 1) n

/-- Fold a digit string into its value; fails on a non-digit. -/
def scanDecAux : GoStr → Nat → Option Nat
  | [], acc => some acc
  | c :: cs, acc =>
    match charDigit c with
    | some d => scanDecAux cs (acc * 10 + d)
    | none => none

/-- Model of `fmt.Sscanf s "%d"`: a nonempty all-digit string parses. -/
def scanDec : GoStr → Option Nat
  | [] => none
  | c :: cs => scanDecAux (c :: cs) 0

theorem charDigit_digitChar {d : Nat} (h : d < 10) :
    charDigit (digitChar d) = some d := by
  interval_cases d <;> decide

theorem formatDecAux_ne_nil {fuel n : Nat} (h : n < fuel) :
    formatDecAux fuel n ≠ [] := by
  cases fuel with
  | zero => omega
  | succ f =>
    simp only [formatDecAux]
    split
    · simp
    · simp

theorem scanDecAux_append (l₁ l₂ : GoStr) (acc : Nat) :
    scanDecAux (l₁ ++ l₂) acc =
      (scanDecAux l₁ acc).bind (scanDecAux l₂) := by
  induction l₁ generalizing acc with
  | nil => simp [scanDecAux]
  | cons c cs ih =>
    simp only [List.cons_append, scanDecAux]
    cases charDigit c with
    | none => simp
    | some d => simp [ih]

theorem scanDecAux_formatDecAux {fuel n : Nat} (h : n < fuel) (acc : Nat) :
    scanDecAux (formatDecAux fuel n) acc = some (acc * 10 ^ (formatDecAux fuel n).length + n) := by
  induction fuel generalizing n acc with
  | zero => omega
  | succ f ih =>
    simp only [formatDecAux]
    split
    · rename_i hn
      simp [scanDecAux, charDigit_digitChar hn]
    · rename_i hn
      push_neg at hn
      have hdiv : n / 10 < f := by
        have := Nat.div_lt_self (n := n) (by omega) (by omega : 1 < 10)
        omega
      rw [scanDecAux_append, ih hdiv acc]
      have h10 : n % 10 < 10 := Nat.mod_lt _ (by omega)
      simp only [Option.some_bind, scanDecAux, charDigit_digitChar h10,
        List.length_append, List.length_cons, List.length_nil]
      congr 1
      have hdm : 10 * (n / 10) + n % 10 = n := Nat.div_add_mod n 10
      calc (acc * 10 ^ (formatDecAux f (n / 10)).length + n / 10) * 10 + n % 10
          = acc * (10 ^ (formatDecAux f (n / 10)).length * 10)
              + (10 * (n / 10) + n % 10) := by ring
        _ = acc * 10 ^ ((formatDecAux f (n / 10)).length + (0 + 1)) + n := by
              rw [hdm, Nat.zero_add, pow_succ]

/-- Round trip: scanning a formatted number recovers it
(`EdgeWeight` inverts the `Sprintf` in `computeEdgeWeights`). -/
theorem scanDec_formatDec (n : Nat) : scanDec (formatDec n) = some n := by
  have hne : formatDec n ≠ [] := formatDecAux_ne_nil (Nat.lt_succ_self n)
  unfold scanDec
  match hfd : formatDec n with
  | [] => exact absurd hfd hne
  | c :: cs =>
    have := scanDecAux_formatDecAux (Nat.lt_succ_self n) 0
    rw [formatDec] at hfd
    rw [hfd] at this
    simpa using this

/-! ## Node labels

`nodeAttr` stores a package name in the label attribute wrapped in
double quotes; `nidPkgSize` strips the first and last character
(`nlab[1 : len(nlab)-1]`) to recover the package. -/

/-- Model of `nodeAttr`: the label is the quoted package name. -/
def quoteLabel (pkg : GoStr) : GoStr := '"' :: (pkg ++ ['"'])

/-- Model of `nlab[1 : len(nlab)-1]` in `nidPkgSize`. -/
def unquoteLabel (lab : GoStr) : GoStr := (lab.drop 1).dropLast

theorem unquoteLabel_quoteLabel (pkg : GoStr) :
    unquoteLabel (quoteLabel pkg) = pkg := by
  simp [unquoteLabel, quoteLabel, List.dropLast_concat]

/-! ## The graph model

Modelled from the spec: the `zgr` graph library is an external
collaborator (section 3 of the spec: nodes with a stable numeric index
and a display label; directed edges with a string attribute map,
created exactly once and kept in insertion order; `GetEdges` /
`GetInEdges` enumerate a node's outgoing and incoming edges in that
order).  The
string node id `"N%d"` is modelled by its numeric index. -/

/-- A directed edge with its attribute map (`map[string]string`). -/
structure Edge where
  src : Nat
  sink : Nat
  attrs : List (String × GoStr)
deriving DecidableEq, Repr

/-- Attribute lookup on an edge's attribute map. -/
def getAttr (attrs : List (String × GoStr)) (key : String) : GoStr :=
  (attrs.lookup key).getD []

/-- The `zgr`-level graph: labelled nodes and attributed edges. -/
structure ZGraph where
  gnodes : List (Nat × GoStr)
  edges : List Edge
deriving DecidableEq, Repr

/-- The node ids of the graph, in insertion order. -/
def ZGraph.ids (g : ZGraph) : List Nat := g.gnodes.map Prod.fst

/-- Label of a node (`LookupNode(..).Label()`). -/
def ZGraph.labelOf (g : ZGraph) (nid : Nat) : GoStr :=
  (g.gnodes.lookup nid).getD []

/-- Out-edges of a node, in edge insertion order (`GetEdges`). -/
def ZGraph.outEdges (g : ZGraph) (nid : Nat) : List Edge :=
  g.edges.filter (fun e => e.src = nid)

/-- In-edges of a node, in edge insertion order (`GetInEdges`). -/
def ZGraph.inEdges (g : ZGraph) (nid : Nat) : List Edge :=
  g.edges.filter (fun e => e.sink = nid)

/-- Successor ids of a node, in edge order. -/
def ZGraph.succs (g : ZGraph) (nid : Nat) : List Nat :=
  (g.outEdges nid).map Edge.sink

/-- The edge relation of the graph. -/
def ZGraph.edgeRel (g : ZGraph) (a b : Nat) : Prop :=
  ∃ e ∈ g.edges, e.src = a ∧ e.sink = b

instance (g : ZGraph) (a b : Nat) : Decidable (g.edgeRel a b) := by
  unfold ZGraph.edgeRel
  infer_instance

/-- Reachability along edges (reflexive-transitive closure). -/
def ZGraph.Reach (g : ZGraph) : Nat → Nat → Prop :=
  Relation.ReflTransGen g.edgeRel

/-- Acyclicity: no node lies on a nonempty edge cycle (section 3 of
the spec: a cyclic input is undefined behavior for this core). -/
def ZGraph.Acyclic (g : ZGraph) : Prop :=
  ∀ n, ¬ Relation.TransGen g.edgeRel n n

/-- Well-formedness: node ids are distinct and every edge joins
existing nodes. -/
def ZGraph.WF (g : ZGraph) : Prop :=
  g.ids.Nodup ∧ ∀ e ∈ g.edges, e.src ∈ g.ids ∧ e.sink ∈ g.ids

instance (g : ZGraph) : Decidable g.WF := by
  unfold ZGraph.WF
  infer_instance

/-- Model of `nidPkgSize`: recover the package from the node's quoted
label and query its size.  The size query (`pkgSize`) is modelled by
the pure function `cost` on package identities — by the idempotence of
the process-wide caches every query for the same identity returns the
same value, and the engine's claims presuppose that every query
succeeds. -/
def ZGraph.nidPkgSize (g : ZGraph) (cost : GoStr → Nat) (nid : Nat) : Nat :=
  cost (unquoteLabel (g.labelOf nid))

/-! ## Pass 1: topological order (`tsvisit` / `topsort`)

A depth-first postorder from the root.  The Go recursion is modelled
with explicit fuel; `topsort` supplies `|nodes| + 1` fuel, which the
lemmas below show is never exhausted on a well-formed graph. -/

/-- DFS state: the `visited` set and the postorder list `tslist`. -/
abbrev TSState := List Nat × List Nat

/-- Model of `tsvisit`: mark the node visited, recurse into the sinks
of its out-edges in order, then append the node to the postorder. -/
def tsvisit (g : ZGraph) : Nat → Nat → TSState → TSState
  | 0, _, st => st
  | fuel + 1, snid, st =>
    if snid ∈ st.1 then st
    else
      (((g.succs snid).foldl (fun acc s => tsvisit g fuel s acc)
          (snid :: st.1, st.2)).1,
        ((g.succs snid).foldl (fun acc s => tsvisit g fuel s acc)
          (snid :: st.1, st.2)).2 ++ [snid])

/-- Model of `topsort`: run the DFS from the root on fresh state and
reverse the recorded postorder. -/
def topsort (g : ZGraph) (root : Nat) : List Nat :=
  (tsvisit g (g.gnodes.length + 1) root ([], [])).2.reverse

/-! ### Correctness of the depth-first postorder -/

/-- Nodes of the graph not yet visited (the fuel measure). -/
def unvisitedCount (g : ZGraph) (visited : List Nat) : Nat :=
  (g.ids.filter (fun n => n ∉ visited)).length

/-- Invariant of the DFS state: the postorder list has no duplicates,
is contained in the visited set, is closed under successors, and no
recorded node has an edge to a later recorded node. -/
structure TSInv (g : ZGraph) (st : TSState) : Prop where
  nodup : st.2.Nodup
  sub : ∀ v ∈ st.2, v ∈ st.1
  closed : ∀ v ∈ st.2, ∀ s ∈ g.succs v, s ∈ st.2
  pw : st.2.Pairwise (fun a b => ¬ g.edgeRel a b)

/-- Postcondition of a batch of DFS calls on the origins `os`:
visited grows, the postorder extends, every newly visited node got
recorded, every newly recorded node is a graph node reachable from an
origin, and all origins end up visited. -/
structure TSPost (g : ZGraph) (os : List Nat) (st st' : TSState) : Prop where
  vmono : ∀ v ∈ st.1, v ∈ st'.1
  tmono : ∃ d, st'.2 = st.2 ++ d
  vnew : ∀ v ∈ st'.1, v ∈ st.1 ∨ v ∈ st'.2
  tnew : ∀ v ∈ st'.2, v ∈ st.2 ∨ (v ∉ st.1 ∧ v ∈ g.ids ∧ ∃ s ∈ os, g.Reach s v)
  dones : ∀ s ∈ os, s ∈ st'.1

theorem unvisitedCount_mono (g : ZGraph) {vis vis' : List Nat}
    (h : ∀ v ∈ vis, v ∈ vis') : unvisitedCount g vis' ≤ unvisitedCount g vis := by
  unfold unvisitedCount
  refine List.Sublist.length_le (List.monotone_filter_right _ ?_)
  intro a ha
  simp only [decide_eq_true_eq] at ha ⊢
  exact fun hmem => ha (h a hmem)

theorem filter_notMem_cons_lt {x : Nat} {vis : List Nat} :
    ∀ l : List Nat, x ∈ l → x ∉ vis →
    (l.filter (fun n => n ∉ x :: vis)).length < (l.filter (fun n => n ∉ vis)).length := by
  intro l hx hnx
  induction l with
  | nil => cases hx
  | cons a l ih =>
    have hsl : (l.filter (fun n => n ∉ x :: vis)).length ≤
        (l.filter (fun n => n ∉ vis)).length := by
      refine List.Sublist.length_le (List.monotone_filter_right _ ?_)
      intro b hb
      simp only [decide_eq_true_eq, List.mem_cons] at hb ⊢
      exact fun hmem => hb (Or.inr hmem)
    by_cases hax : a = x
    · subst hax
      have h1 : (decide (a ∉ a :: vis)) = false := by simp
      have h2 : (decide (a ∉ vis)) = true := by simpa using hnx
      simp only [List.filter_cons, h1, h2, if_true, List.length_cons]
      rw [if_neg (by decide : ¬(false = true))]
      omega
    · have hx' : x ∈ l := by
        rcases List.mem_cons.mp hx with h | h
        · exact absurd h.symm hax
        · exact h
      have heq : (decide (a ∉ x :: vis)) = (decide (a ∉ vis)) := by
        by_cases hav : a ∈ vis
        · simp [hav]
        · simp [hav, hax]
      simp only [List.filter_cons, heq]
      cases hd : decide (a ∉ vis) with
      | false => simpa [hd] using ih hx'
      | true =>
        simp only [if_true, List.length_cons]
        have := ih hx'
        omega

theorem unvisitedCount_cons_lt (g : ZGraph) {x : Nat} {vis : List Nat}
    (hx : x ∈ g.ids) (hnx : x ∉ vis) :
    unvisitedCount g (x :: vis) < unvisitedCount g vis :=
  filter_notMem_cons_lt g.ids hx hnx

/-- The visited-but-unrecorded ("gray") set is preserved by any batch
of calls satisfying the postcondition. -/
theorem TSPost.gray_eq {g : ZGraph} {os : List Nat} {st st' : TSState}
    (hp : TSPost g os st st') :
    ∀ v, (v ∈ st'.1 ∧ v ∉ st'.2) ↔ (v ∈ st.1 ∧ v ∉ st.2) := by
  intro v
  obtain ⟨d, hd⟩ := hp.tmono
  constructor
  · rintro ⟨hv1, hv2⟩
    rcases hp.vnew v hv1 with h | h
    · refine ⟨h, fun hmem => hv2 ?_⟩
      rw [hd]; exact List.mem_append_left _ hmem
    · exact absurd h hv2
  · rintro ⟨hv1, hv2⟩
    refine ⟨hp.vmono v hv1, fun hmem => ?_⟩
    rcases hp.tnew v hmem with h | h
    · exact hv2 h
    · exact h.1 hv1

/-- Composition of postconditions over consecutive batches. -/
theorem TSPost.comp {g : ZGraph} {os₁ os₂ : List Nat} {st st' st'' : TSState}
    (h₁ : TSPost g os₁ st st') (h₂ : TSPost g os₂ st' st'') :
    TSPost g (os₁ ++ os₂) st st'' := by
  obtain ⟨d₁, hd₁⟩ := h₁.tmono
  obtain ⟨d₂, hd₂⟩ := h₂.tmono
  refine ⟨fun v hv => h₂.vmono v (h₁.vmono v hv), ⟨d₁ ++ d₂, by rw [hd₂, hd₁, List.append_assoc]⟩,
    ?_, ?_, ?_⟩
  · intro v hv
    rcases h₂.vnew v hv with h | h
    · rcases h₁.vnew v h with h' | h'
      · exact Or.inl h'
      · right; rw [hd₂]; exact List.mem_append_left _ h'
    · exact Or.inr h
  · intro v hv
    rcases h₂.tnew v hv with h | h
    · rcases h₁.tnew v h with h' | h'
      · exact Or.inl h'
      · exact Or.inr ⟨h'.1, h'.2.1, h'.2.2.imp fun s hs => ⟨List.mem_append_left _ hs.1, hs.2⟩⟩
    · refine Or.inr ⟨fun hmem => h.1 (h₁.vmono v hmem), h.2.1,
        h.2.2.imp fun s hs => ⟨List.mem_append_right _ hs.1, hs.2⟩⟩
  · intro s hs
    rcases List.mem_append.mp hs with h | h
    · exact h₂.vmono s (h₁.dones s h)
    · exact h₂.dones s h

/-- An element of `succs` gives an edge of the graph. -/
theorem edgeRel_of_mem_succs {g : ZGraph} {a s : Nat} (h : s ∈ g.succs a) :
    g.edgeRel a s := by
  simp only [ZGraph.succs, ZGraph.outEdges, List.mem_map, List.mem_filter,
    decide_eq_true_eq] at h
  obtain ⟨e, ⟨he, hsrc⟩, hsink⟩ := h
  exact ⟨e, he, hsrc, hsink⟩

/-- Conversely, an edge of the graph yields a `succs` membership. -/
theorem mem_succs_of_edgeRel {g : ZGraph} {a s : Nat} (h : g.edgeRel a s) :
    s ∈ g.succs a := by
  obtain ⟨e, he, hsrc, hsink⟩ := h
  simp only [ZGraph.succs, ZGraph.outEdges, List.mem_map, List.mem_filter,
    decide_eq_true_eq]
  exact ⟨e, ⟨he, hsrc⟩, hsink⟩

/-- The batch of recursive DFS calls over a successor list preserves
the invariant and satisfies the batch postcondition, given the
specification of a single call at the inner fuel level. -/
theorem tsvisit_fold_spec (g : ZGraph) (fuel : Nat)
    (IH : ∀ s st, s ∈ g.ids → TSInv g st →
      (∀ v ∈ st.1, v ∉ st.2 → g.Reach v s) →
      unvisitedCount g st.1 < fuel →
      TSInv g (tsvisit g fuel s st) ∧ TSPost g [s] st (tsvisit g fuel s st)) :
    ∀ (l : List Nat) (st : TSState), (∀ s ∈ l, s ∈ g.ids) → TSInv g st →
      (∀ v ∈ st.1, v ∉ st.2 → ∀ s ∈ l, g.Reach v s) →
      unvisitedCount g st.1 < fuel →
      TSInv g (l.foldl (fun acc s => tsvisit g fuel s acc) st) ∧
        TSPost g l st (l.foldl (fun acc s => tsvisit g fuel s acc) st) := by
  intro l
  induction l with
  | nil =>
    intro st _ hinv _ _
    exact ⟨hinv, ⟨fun v hv => hv, ⟨[], by simp⟩, fun v hv => Or.inl hv,
      fun v hv => Or.inl hv, by simp⟩⟩
  | cons s l ih =>
    intro st hl hinv hgray hfuel
    have hs : s ∈ g.ids := hl s (List.mem_cons_self s l)
    obtain ⟨hinv₁, hpost₁⟩ := IH s st hs hinv
      (fun v hv hnv => hgray v hv hnv s (List.mem_cons_self s l)) hfuel
    have hgray₁ : ∀ v ∈ (tsvisit g fuel s st).1, v ∉ (tsvisit g fuel s st).2 →
        ∀ t ∈ l, g.Reach v t := by
      intro v hv hnv t ht
      have hgr := (hpost₁.gray_eq v).mp ⟨hv, hnv⟩
      exact hgray v hgr.1 hgr.2 t (List.mem_cons_of_mem _ ht)
    have hfuel₁ : unvisitedCount g (tsvisit g fuel s st).1 < fuel :=
      lt_of_le_of_lt (unvisitedCount_mono g hpost₁.vmono) hfuel
    obtain ⟨hinv₂, hpost₂⟩ := ih (tsvisit g fuel s st)
      (fun t ht => hl t (List.mem_cons_of_mem _ ht)) hinv₁ hgray₁ hfuel₁
    constructor
    · simpa [List.foldl_cons] using hinv₂
    · have := hpost₁.comp hpost₂
      simpa [List.foldl_cons] using this

/-- Specification of a single `tsvisit` call: under acyclicity and
well-formedness, with a visited set whose gray part all reaches the
current node, the call preserves the invariant and satisfies the
postcondition. -/
theorem tsvisit_spec (g : ZGraph) (hwf : g.WF) (hacyc : g.Acyclic) :
    ∀ (fuel snid : Nat) (st : TSState), snid ∈ g.ids → TSInv g st →
      (∀ v ∈ st.1, v ∉ st.2 → g.Reach v snid) →
      unvisitedCount g st.1 < fuel →
      TSInv g (tsvisit g fuel snid st) ∧
        TSPost g [snid] st (tsvisit g fuel snid st) := by
  intro fuel
  induction fuel with
  | zero => intro snid st _ _ _ h; omega
  | succ f ih =>
    intro snid st hsnid hinv hgray hfuel
    by_cases hv : snid ∈ st.1
    · rw [tsvisit, if_pos hv]
      refine ⟨hinv, fun v hv => hv, ⟨[], by simp⟩, fun v hv => Or.inl hv,
        fun v hv => Or.inl hv, ?_⟩
      intro s hs
      rw [List.mem_singleton] at hs
      exact hs ▸ hv
    · rw [tsvisit, if_neg hv]
      set s0 : TSState := (snid :: st.1, st.2) with hs0
      have hinv0 : TSInv g s0 := by
        refine ⟨hinv.nodup, fun v hv => List.mem_cons_of_mem _ (hinv.sub v hv),
          hinv.closed, hinv.pw⟩
      have hsuccids : ∀ s ∈ g.succs snid, s ∈ g.ids := by
        intro s hs
        obtain ⟨e, he, _, hsink⟩ := edgeRel_of_mem_succs hs
        exact hsink ▸ (hwf.2 e he).2
      have hgray0 : ∀ v ∈ s0.1, v ∉ s0.2 → ∀ s ∈ g.succs snid, g.Reach v s := by
        intro v hv1 hv2 s hs
        have hedge : g.edgeRel snid s := edgeRel_of_mem_succs hs
        rcases List.mem_cons.mp hv1 with h | h
        · exact h ▸ Relation.ReflTransGen.single hedge
        · exact (hgray v h hv2).tail hedge
      have hfuel0 : unvisitedCount g s0.1 < f := by
        have h1 := unvisitedCount_cons_lt g hsnid hv
        have hs01 : s0.1 = snid :: st.1 := rfl
        rw [hs01]
        omega
      obtain ⟨hinv₁, hpost₁⟩ := tsvisit_fold_spec g f ih (g.succs snid) s0
        hsuccids hinv0 hgray0 hfuel0
      set st1 := (g.succs snid).foldl (fun acc s => tsvisit g f s acc) s0 with hst1
      have hsnid_nt : snid ∉ st.2 := fun h => hv (hinv.sub snid h)
      have hsnid_nt1 : snid ∉ st1.2 := by
        intro h
        rcases hpost₁.tnew snid h with h' | h'
        · exact hsnid_nt h'
        · exact h'.1 (List.mem_cons_self _ _)
      have hsuccs_t1 : ∀ s ∈ g.succs snid, s ∈ st1.2 := by
        intro s hs
        have hedge : g.edgeRel snid s := edgeRel_of_mem_succs hs
        have hsv : s ∈ st1.1 := hpost₁.dones s hs
        rcases hpost₁.vnew s hsv with h | h
        · rcases List.mem_cons.mp h with h' | h'
          · exact absurd (Relation.TransGen.single (h' ▸ hedge)) (hacyc s)
          · by_cases hst2 : s ∈ st.2
            · obtain ⟨d, hd⟩ := hpost₁.tmono
              rw [hd]
              exact List.mem_append_left _ hst2
            · exact absurd (Relation.TransGen.tail' (hgray s h' hst2) hedge)
                (hacyc s)
        · exact h
      refine ⟨⟨?_, ?_, ?_, ?_⟩, ?_, ?_, ?_, ?_, ?_⟩
      · rw [List.nodup_append]
        refine ⟨hinv₁.nodup, List.nodup_singleton _, ?_⟩
        intro a ha hb
        rw [List.mem_singleton] at hb
        exact hsnid_nt1 (hb ▸ ha)
      · intro v hvm
        rcases List.mem_append.mp hvm with h | h
        · exact hinv₁.sub v h
        · rw [List.mem_singleton] at h
          exact h ▸ hpost₁.vmono snid (List.mem_cons_self _ _)
      · intro v hvm s hs
        rcases List.mem_append.mp hvm with h | h
        · exact List.mem_append_left _ (hinv₁.closed v h s hs)
        · rw [List.mem_singleton] at h
          exact List.mem_append_left _ (hsuccs_t1 s (h ▸ hs))
      · rw [List.pairwise_append]
        refine ⟨hinv₁.pw, List.pairwise_singleton _ _, ?_⟩
        intro a ha b hb
        rw [List.mem_singleton] at hb
        subst hb
        intro hedge
        exact hsnid_nt1 (hinv₁.closed a ha b (mem_succs_of_edgeRel hedge))
      · intro v hvm
        exact hpost₁.vmono v (List.mem_cons_of_mem _ hvm)
      · obtain ⟨d, hd⟩ := hpost₁.tmono
        exact ⟨d ++ [snid], by rw [hd]; simp [List.append_assoc]⟩
      · intro v hvm
        rcases hpost₁.vnew v hvm with h | h
        · rcases List.mem_cons.mp h with h' | h'
          · right
            exact List.mem_append_right _ (h' ▸ List.mem_singleton_self _)
          · exact Or.inl h'
        · exact Or.inr (List.mem_append_left _ h)
      · intro v hvm
        rcases List.mem_append.mp hvm with h | h
        · rcases hpost₁.tnew v h with h' | ⟨hn, hid, s, hs, hr⟩
          · exact Or.inl h'
          · refine Or.inr ⟨fun hm => hn (List.mem_cons_of_mem _ hm), hid,
              snid, List.mem_singleton_self _, ?_⟩
            exact Relation.ReflTransGen.head (edgeRel_of_mem_succs hs) hr
        · rw [List.mem_singleton] at h
          subst h
          exact Or.inr ⟨hv, hsnid, v, List.mem_singleton_self _,
            Relation.ReflTransGen.refl⟩
      · intro s hs
        rw [List.mem_singleton] at hs
        exact hs ▸ hpost₁.vmono snid (List.mem_cons_self _ _)

/-- The facts about the reversed postorder produced by `topsort`:
no duplicates, exactly the nodes reachable from the root, and every
edge inside the listing points forward. -/
theorem topsort_props (g : ZGraph) (hwf : g.WF) (hacyc : g.Acyclic)
    (root : Nat) (hroot : root ∈ g.ids) :
    (topsort g root).Nodup ∧
    (∀ v ∈ topsort g root, v ∈ g.ids ∧ g.Reach root v) ∧
    (∀ v, g.Reach root v → v ∈ topsort g root) ∧
    (topsort g root).Pairwise (fun a b => ¬ g.edgeRel b a) := by
  have hfuel : unvisitedCount g [] < g.gnodes.length + 1 := by
    have h0 : unvisitedCount g [] = g.ids.length := by
      simp [unvisitedCount]
    rw [h0, ZGraph.ids, List.length_map]
    omega
  obtain ⟨hinv, hpost⟩ := tsvisit_spec g hwf hacyc (g.gnodes.length + 1) root
    ([], []) hroot ⟨List.nodup_nil, by simp, by simp, List.Pairwise.nil⟩
    (by simp) hfuel
  set st := tsvisit g (g.gnodes.length + 1) root ([], []) with hst
  have hroot_t : root ∈ st.2 := by
    have h1 := hpost.dones root (List.mem_singleton_self _)
    rcases hpost.vnew root h1 with h | h
    · cases h
    · exact h
  have hmem : ∀ v ∈ st.2, v ∈ g.ids ∧ g.Reach root v := by
    intro v hv
    rcases hpost.tnew v hv with h | ⟨_, hid, s, hs, hr⟩
    · cases h
    · rw [List.mem_singleton] at hs
      exact ⟨hid, hs ▸ hr⟩
  have hcomp : ∀ v, g.Reach root v → v ∈ st.2 := by
    intro v hr
    induction hr with
    | refl => exact hroot_t
    | tail hab hbc ih => exact hinv.closed _ ih _ (mem_succs_of_edgeRel hbc)
  have hts : topsort g root = st.2.reverse := rfl
  rw [hts]
  refine ⟨List.nodup_reverse.mpr hinv.nodup, ?_, ?_, ?_⟩
  · intro v hv
    exact hmem v (List.mem_reverse.mp hv)
  · intro v hv
    exact List.mem_reverse.mpr (hcomp v hv)
  · exact List.pairwise_reverse.mpr hinv.pw

/-- In the reversed postorder, every edge whose source is listed has
its sink listed at a strictly later position. -/
theorem topsort_index_lt (g : ZGraph) (hwf : g.WF) (hacyc : g.Acyclic)
    (root : Nat) (hroot : root ∈ g.ids) :
    ∀ e ∈ g.edges, e.src ∈ topsort g root →
      e.sink ∈ topsort g root ∧
      (topsort g root).indexOf e.src < (topsort g root).indexOf e.sink := by
  obtain ⟨hnd, hmem, hcomp, hpw⟩ := topsort_props g hwf hacyc root hroot
  intro e he hsrc
  have hedge : g.edgeRel e.src e.sink := ⟨e, he, rfl, rfl⟩
  have hsink : e.sink ∈ topsort g root :=
    hcomp e.sink ((hmem e.src hsrc).2.tail hedge)
  refine ⟨hsink, ?_⟩
  set l := topsort g root with hl
  have hne : e.src ≠ e.sink := by
    intro h
    exact hacyc e.src (Relation.TransGen.single (h ▸ hedge))
  have hiu : l.indexOf e.src < l.length := List.indexOf_lt_length.mpr hsrc
  have hiw : l.indexOf e.sink < l.length := List.indexOf_lt_length.mpr hsink
  rcases Nat.lt_trichotomy (l.indexOf e.src) (l.indexOf e.sink) with h | h | h
  · exact h
  · exact absurd ((List.indexOf_inj hsrc hsink).mp h) hne
  · exfalso
    have hpg := List.pairwise_iff_get.mp hpw ⟨l.indexOf e.sink, hiw⟩
      ⟨l.indexOf e.src, hiu⟩ h
    rw [List.get_eq_getElem, List.get_eq_getElem, List.getElem_indexOf hiu,
      List.getElem_indexOf hiw] at hpg
    exact hpg hedge

/-! ## Pass 2: the longest-path dynamic program of `markCriticalPaths`

`pathto` is a Go map read as zero on missing keys; it is modelled as a
total function `Nat → Nat` built by functional update. -/

/-- The initialization loop: `pathto[nid] = pi.sz` for every node of
the topological listing. -/
def dpInit (g : ZGraph) (cost : GoStr → Nat) (listing : List Nat) : Nat → Nat :=
  listing.foldl
    (fun pt nid => Function.update pt nid (g.nidPkgSize cost nid))
    (fun _ => 0)

/-- One iteration of the second loop at node `nid`: `toval` is read
once before the in-edge loop (as in Go), and each in-edge `src → nid`
relaxes `pathto[src]` to `toval + src's own cost` when larger. -/
def dpStep (g : ZGraph) (cost : GoStr → Nat) (pt : Nat → Nat) (nid : Nat) : Nat → Nat :=
  (g.inEdges nid).foldl
    (fun pt2 e =>
      if pt2 e.src < pt nid + g.nidPkgSize cost e.src then
        Function.update pt2 e.src (pt nid + g.nidPkgSize cost e.src)
      else pt2)
    pt

/-- The `pathto` map after both loops of `markCriticalPaths`: the
listing is processed from its end toward the root
(`nid := listing[len(listing)-k-1]`). -/
def computePathto (g : ZGraph) (cost : GoStr → Nat) (root : Nat) : Nat → Nat :=
  (topsort g root).reverse.foldl (dpStep g cost) (dpInit g cost (topsort g root))

/-- Largest `pathto` value over a list of node ids (zero on an empty
list). -/
def maxPt (pt : Nat → Nat) (l : List Nat) : Nat := (l.map pt).foldr max 0

/-- Contribution to a pending node `u` from its already-processed
successors. -/
def contrib (g : ZGraph) (cost : GoStr → Nat) (pt : Nat → Nat) (done : List Nat)
    (u : Nat) : Nat :=
  ((g.succs u).map
    (fun s => if s ∈ done then pt s + g.nidPkgSize cost u else 0)).foldr max 0

/-- Invariant of the second loop: processed nodes satisfy the local
longest-path equation, pending nodes hold their initialization maxed
with the contributions received so far. -/
def DPInv (g : ZGraph) (cost : GoStr → Nat) (listing done : List Nat)
    (pt : Nat → Nat) : Prop :=
  (∀ v ∈ done, pt v = g.nidPkgSize cost v + maxPt pt (g.succs v)) ∧
  (∀ u ∈ listing, u ∉ done →
    pt u = max (g.nidPkgSize cost u) (contrib g cost pt done u))

theorem foldl_update_eq (f : Nat → Nat) (val : Nat → Nat) :
    ∀ (l : List Nat) (u : Nat),
      (l.foldl (fun pt nid => Function.update pt nid (val nid)) f) u =
        if u ∈ l then val u else f u := by
  intro l
  induction l generalizing f with
  | nil => intro u; simp
  | cons a l ih =>
    intro u
    rw [List.foldl_cons, ih]
    by_cases hul : u ∈ l
    · simp [hul]
    · by_cases hua : u = a
      · subst hua
        simp [hul, Function.update]
      · simp [hul, hua, Function.update]

theorem dpInit_eq (g : ZGraph) (cost : GoStr → Nat) (listing : List Nat) (u : Nat) :
    dpInit g cost listing u =
      if u ∈ listing then g.nidPkgSize cost u else 0 :=
  foldl_update_eq _ _ listing u

theorem dpStepAux (tv : Nat) (c : Nat → Nat) :
    ∀ (l : List Edge) (pt2 : Nat → Nat) (u : Nat),
      (l.foldl
        (fun p e => if p e.src < tv + c e.src then
          Function.update p e.src (tv + c e.src) else p) pt2) u =
        if ∃ e ∈ l, e.src = u then max (pt2 u) (tv + c u) else pt2 u := by
  intro l
  induction l with
  | nil => intro pt2 u; simp
  | cons e l ih =>
    intro pt2 u
    rw [List.foldl_cons, ih]
    by_cases heu : e.src = u
    · subst heu
      have hval : (if pt2 e.src < tv + c e.src then
          Function.update pt2 e.src (tv + c e.src) else pt2) e.src =
          max (pt2 e.src) (tv + c e.src) := by
        split
        · simp [Function.update]; omega
        · omega
      have hex : (∃ e2 ∈ e :: l, e2.src = e.src) := ⟨e, List.mem_cons_self _ _, rfl⟩
      by_cases hexl : ∃ e2 ∈ l, e2.src = e.src
      · simp only [hexl, if_true, hex, if_true, hval]
        omega
      · simp only [hexl, if_false, hex, if_true, hval]
    · have hsame : (if pt2 e.src < tv + c e.src then
          Function.update pt2 e.src (tv + c e.src) else pt2) u = pt2 u := by
        split
        · simp [Function.update, heu]
          intro h
          exact absurd h.symm heu
        · rfl
      have hiff : (∃ e2 ∈ e :: l, e2.src = u) ↔ (∃ e2 ∈ l, e2.src = u) := by
        constructor
        · rintro ⟨e2, he2, hs⟩
          rcases List.mem_cons.mp he2 with h | h
          · exact absurd (h ▸ hs) heu
          · exact ⟨e2, h, hs⟩
        · rintro ⟨e2, he2, hs⟩
          exact ⟨e2, List.mem_cons_of_mem _ he2, hs⟩
      by_cases hexl : ∃ e2 ∈ l, e2.src = u
      · simp only [hexl, if_true, hiff.mpr hexl, if_true, hsame]
      · have : ¬ (∃ e2 ∈ e :: l, e2.src = u) := fun h => hexl (hiff.mp h)
        simp only [hexl, if_false, this, if_false, hsame]

/-- Pointwise description of one `dpStep`: a node changes only if it
is the source of an in-edge of `nid`, in which case it takes the max
with `toval + its own cost`. -/
theorem dpStep_apply (g : ZGraph) (cost : GoStr → Nat) (pt : Nat → Nat)
    (nid u : Nat) :
    dpStep g cost pt nid u =
      if g.edgeRel u nid then max (pt u) (pt nid + g.nidPkgSize cost u)
      else pt u := by
  rw [dpStep, dpStepAux]
  have hiff : (∃ e ∈ g.inEdges nid, e.src = u) ↔ g.edgeRel u nid := by
    constructor
    · rintro ⟨e, he, hs⟩
      rw [ZGraph.inEdges, List.mem_filter, decide_eq_true_eq] at he
      exact ⟨e, he.1, hs, he.2⟩
    · rintro ⟨e, he, hs, hk⟩
      refine ⟨e, ?_, hs⟩
      rw [ZGraph.inEdges, List.mem_filter, decide_eq_true_eq]
      exact ⟨he, hk⟩
  by_cases h : g.edgeRel u nid
  · rw [if_pos (hiff.mpr h), if_pos h]
  · rw [if_neg (fun hx => h (hiff.mp hx)), if_neg h]

theorem foldr_max_add (c : Nat) :
    ∀ (l : List Nat), l ≠ [] →
      ((l.map (fun x => x + c)).foldr max 0) = l.foldr max 0 + c := by
  intro l
  induction l with
  | nil => intro h; exact absurd rfl h
  | cons a l ih =>
    intro _
    cases l with
    | nil => simp
    | cons b l =>
      rw [List.map_cons, List.foldr_cons, List.foldr_cons, ih (by simp)]
      omega

theorem foldr_max_update (w c : Nat) (f : Nat → Nat) (hfw : f w = 0) :
    ∀ (l : List Nat), w ∈ l →
      ((l.map (fun s => if s = w then c else f s)).foldr max 0) =
        max c ((l.map f).foldr max 0) := by
  intro l
  induction l with
  | nil => intro h; cases h
  | cons a l ih =>
    intro hw
    rw [List.map_cons, List.map_cons, List.foldr_cons, List.foldr_cons]
    by_cases haw : a = w
    · subst haw
      rw [if_pos rfl, hfw]
      by_cases hwl : a ∈ l
      · rw [ih hwl]; omega
      · have : l.map (fun s => if s = a then c else f s) = l.map f := by
          refine List.map_congr_left ?_
          intro s hs
          have hsa : s ≠ a := fun h => hwl (h ▸ hs)
          rw [if_neg hsa]
        rw [this]; omega
    · have hwl : w ∈ l := by
        rcases List.mem_cons.mp hw with h | h
        · exact absurd h.symm haw
        · exact h
      rw [if_neg haw, ih hwl]
      omega

/-- Processing one node of the listing preserves the loop invariant. -/
theorem dpStep_inv (g : ZGraph) (hwf : g.WF) (hacyc : g.Acyclic)
    (cost : GoStr → Nat) (order done rest : List Nat) (w : Nat)
    (horder : order = done ++ w :: rest)
    (hnd : order.Nodup)
    (hpw : order.Pairwise (fun a b => ¬ g.edgeRel a b))
    (hcompl : ∀ v ∈ g.ids, v ∈ order)
    (hmem : ∀ v ∈ order, v ∈ g.ids)
    (pt : Nat → Nat)
    (hinv : DPInv g cost order done pt) :
    DPInv g cost order (done ++ [w]) (dpStep g cost pt w) := by
  obtain ⟨hA, hB⟩ := hinv
  have hwo : w ∈ order := by
    rw [horder]; exact List.mem_append_right _ (List.mem_cons_self _ _)
  have hwids : w ∈ g.ids := hmem w hwo
  have hpw' := hpw
  rw [horder, List.pairwise_append] at hpw'
  obtain ⟨hpwd, hpwc, hcross⟩ := hpw'
  rw [List.pairwise_cons] at hpwc
  obtain ⟨hwrest, hpwrest⟩ := hpwc
  have hnd' := hnd
  rw [horder, List.nodup_append] at hnd'
  have hwdone : w ∉ done := fun h => hnd'.2.2 h (List.mem_cons_self _ _)
  have hww : ¬ g.edgeRel w w := fun h => hacyc w (Relation.TransGen.single h)
  have hunch : ∀ v, v ∈ done ∨ v = w → dpStep g cost pt w v = pt v := by
    intro v hv
    rw [dpStep_apply]
    rcases hv with h | h
    · rw [if_neg (hcross v h w (List.mem_cons_self _ _))]
    · rw [if_neg (h ▸ hww)]
  have hsucc_done : ∀ v, v ∈ done ∨ v = w → ∀ s ∈ g.succs v, s ∈ done ∨ s = w := by
    intro v hv s hs
    have hedge := edgeRel_of_mem_succs hs
    have hsids : s ∈ g.ids := by
      obtain ⟨e, he, _, hsink⟩ := hedge
      exact hsink ▸ (hwf.2 e he).2
    have hso := hcompl s hsids
    rw [horder] at hso
    rcases List.mem_append.mp hso with h | h
    · exact Or.inl h
    · rcases List.mem_cons.mp h with h' | h'
      · exact Or.inr h'
      · exfalso
        rcases hv with hvd | hvw
        · exact hcross v hvd s (List.mem_cons_of_mem _ h') hedge
        · exact hwrest s h' (hvw ▸ hedge)
  have hsucc_w : ∀ s ∈ g.succs w, s ∈ done := by
    intro s hs
    rcases hsucc_done w (Or.inr rfl) s hs with h | h
    · exact h
    · exact absurd (by rw [h] at hs; exact edgeRel_of_mem_succs hs) hww
  constructor
  · intro v hv
    rcases List.mem_append.mp hv with hvd | hvw
    · rw [hunch v (Or.inl hvd)]
      have hsuccs_unch : maxPt (dpStep g cost pt w) (g.succs v) =
          maxPt pt (g.succs v) := by
        unfold maxPt
        congr 1
        exact List.map_congr_left
          (fun s hs => hunch s (hsucc_done v (Or.inl hvd) s hs))
      rw [hsuccs_unch]
      exact hA v hvd
    · rw [List.mem_singleton] at hvw
      rw [hvw, hunch w (Or.inr rfl)]
      have hwB := hB w hwo hwdone
      have hmax_unch : maxPt (dpStep g cost pt w) (g.succs w) =
          maxPt pt (g.succs w) := by
        unfold maxPt
        congr 1
        exact List.map_congr_left
          (fun s hs => hunch s (Or.inl (hsucc_w s hs)))
      rw [hmax_unch]
      have hcontrib : contrib g cost pt done w =
          ((g.succs w).map (fun s => pt s + g.nidPkgSize cost w)).foldr max 0 := by
        unfold contrib
        congr 1
        exact List.map_congr_left (fun s hs => by rw [if_pos (hsucc_w s hs)])
      rw [hcontrib] at hwB
      by_cases hsw : g.succs w = []
      · rw [hsw] at hwB ⊢
        simp only [List.map_nil, List.foldr_nil, maxPt] at hwB ⊢
        omega
      · have hadd := foldr_max_add (g.nidPkgSize cost w) ((g.succs w).map pt)
          (by simpa using hsw)
        rw [List.map_map] at hadd
        have hcomp2 : ((fun x => x + g.nidPkgSize cost w) ∘ pt) =
            (fun s => pt s + g.nidPkgSize cost w) := rfl
        rw [hcomp2] at hadd
        rw [hadd] at hwB
        unfold maxPt
        omega
  · intro u hu hnun
    have hud : u ∉ done := fun h => hnun (List.mem_append_left _ h)
    have hunw : u ≠ w := fun h =>
      hnun (List.mem_append_right _ (h ▸ List.mem_singleton_self _))
    have huB := hB u hu hud
    by_cases hew : g.edgeRel u w
    · have hptu : dpStep g cost pt w u = max (pt u) (pt w + g.nidPkgSize cost u) := by
        rw [dpStep_apply, if_pos hew]
      have hwsucc : w ∈ g.succs u := mem_succs_of_edgeRel hew
      have hc : contrib g cost (dpStep g cost pt w) (done ++ [w]) u =
          max (pt w + g.nidPkgSize cost u) (contrib g cost pt done u) := by
        unfold contrib
        have hmapeq : (g.succs u).map
            (fun s => if s ∈ done ++ [w] then
              dpStep g cost pt w s + g.nidPkgSize cost u else 0) =
            (g.succs u).map
            (fun s => if s = w then pt w + g.nidPkgSize cost u
              else (if s ∈ done then pt s + g.nidPkgSize cost u else 0)) := by
          refine List.map_congr_left ?_
          intro s hs
          by_cases hsw2 : s = w
          · rw [hsw2, if_pos (List.mem_append_right _ (List.mem_singleton_self _)),
              if_pos rfl, hunch w (Or.inr rfl)]
          · rw [if_neg hsw2]
            by_cases hsd : s ∈ done
            · rw [if_pos (List.mem_append_left _ hsd), if_pos hsd,
                hunch s (Or.inl hsd)]
            · have hnm : s ∉ done ++ [w] := by
                intro hmem2
                rcases List.mem_append.mp hmem2 with h | h
                · exact hsd h
                · rw [List.mem_singleton] at h; exact hsw2 h
              rw [if_neg hnm, if_neg hsd]
        rw [hmapeq]
        exact foldr_max_update w (pt w + g.nidPkgSize cost u)
          (fun s => if s ∈ done then pt s + g.nidPkgSize cost u else 0)
          (by simp [hwdone]) (g.succs u) hwsucc
      rw [hptu, hc, huB]
      omega
    · have hptu : dpStep g cost pt w u = pt u := by
        rw [dpStep_apply, if_neg hew]
      have hc : contrib g cost (dpStep g cost pt w) (done ++ [w]) u =
          contrib g cost pt done u := by
        unfold contrib
        congr 1
        refine List.map_congr_left ?_
        intro s hs
        have hsnw : s ≠ w := fun h => hew (h ▸ edgeRel_of_mem_succs hs)
        by_cases hsd : s ∈ done
        · rw [if_pos (List.mem_append_left _ hsd), if_pos hsd,
            hunch s (Or.inl hsd)]
        · have hnm : s ∉ done ++ [w] := by
            intro hmem2
            rcases List.mem_append.mp hmem2 with h | h
            · exact hsd h
            · rw [List.mem_singleton] at h; exact hsnw h
          rw [if_neg hnm, if_neg hsd]
      rw [hptu, hc]
      exact huB

/-- The whole second loop establishes the local longest-path equation
on every node of the listing. -/
theorem dp_fold_inv (g : ZGraph) (hwf : g.WF) (hacyc : g.Acyclic)
    (cost : GoStr → Nat) (order : List Nat)
    (hnd : order.Nodup) (hpw : order.Pairwise (fun a b => ¬ g.edgeRel a b))
    (hcompl : ∀ v ∈ g.ids, v ∈ order) (hmem : ∀ v ∈ order, v ∈ g.ids) :
    ∀ (rest done : List Nat) (pt : Nat → Nat), order = done ++ rest →
      DPInv g cost order done pt →
      DPInv g cost order order (rest.foldl (dpStep g cost) pt) := by
  intro rest
  induction rest with
  | nil =>
    intro done pt horder hinv
    rw [List.foldl_nil]
    rw [List.append_nil] at horder
    rw [horder] at hinv ⊢
    exact hinv
  | cons w rest ih =>
    intro done pt horder hinv
    rw [List.foldl_cons]
    refine ih (done ++ [w]) (dpStep g cost pt w) ?_ ?_
    · rw [horder, List.append_assoc]
      rfl
    · exact dpStep_inv g hwf hacyc cost order done rest w horder hnd hpw
        hcompl hmem pt hinv

/-- The local longest-path equation holds for every node after the
dynamic-programming pass, on a well-formed acyclic graph whose nodes
are all reachable from the root. -/
theorem computePathto_localEq (g : ZGraph) (hwf : g.WF) (hacyc : g.Acyclic)
    (cost : GoStr → Nat) (root : Nat) (hroot : root ∈ g.ids)
    (hreach : ∀ n ∈ g.ids, g.Reach root n) :
    ∀ v ∈ g.ids,
      computePathto g cost root v =
        g.nidPkgSize cost v + maxPt (computePathto g cost root) (g.succs v) := by
  obtain ⟨hnd, hmemr, hcompl, hpw⟩ := topsort_props g hwf hacyc root hroot
  have hnd' : (topsort g root).reverse.Nodup := List.nodup_reverse.mpr hnd
  have hpw' : (topsort g root).reverse.Pairwise (fun a b => ¬ g.edgeRel a b) := by
    rw [List.pairwise_reverse]
    exact hpw
  have hcompl' : ∀ v ∈ g.ids, v ∈ (topsort g root).reverse := fun v hv =>
    List.mem_reverse.mpr (hcompl v (hreach v hv))
  have hmem' : ∀ v ∈ (topsort g root).reverse, v ∈ g.ids := fun v hv =>
    (hmemr v (List.mem_reverse.mp hv)).1
  have hzero : ∀ l : List Nat, (l.map (fun _ => (0:Nat))).foldr max 0 = 0 := by
    intro l; induction l with
    | nil => simp
    | cons a l ih => simpa using ih
  have hbase : DPInv g cost (topsort g root).reverse []
      (dpInit g cost (topsort g root)) := by
    constructor
    · intro v hv; cases hv
    · intro u hu _
      have huls : u ∈ topsort g root := List.mem_reverse.mp hu
      rw [dpInit_eq, if_pos huls]
      have hzc : contrib g cost (dpInit g cost (topsort g root)) [] u = 0 := by
        unfold contrib
        have : (g.succs u).map
            (fun s => if s ∈ ([] : List Nat) then
              dpInit g cost (topsort g root) s + g.nidPkgSize cost u else 0) =
            (g.succs u).map (fun _ => 0) := by
          refine List.map_congr_left ?_
          intro s _
          rw [if_neg (List.not_mem_nil s)]
        rw [this, hzero]
      rw [hzc]
      omega
  have hfinal := dp_fold_inv g hwf hacyc cost (topsort g root).reverse hnd' hpw'
    hcompl' hmem' (topsort g root).reverse [] (dpInit g cost (topsort g root))
    (by simp) hbase
  intro v hv
  exact hfinal.1 v (hcompl' v hv)

/-- `pathto[v]` dominates `v`'s own cost on every reachable node. -/
theorem computePathto_ge_cost (g : ZGraph) (hwf : g.WF) (hacyc : g.Acyclic)
    (cost : GoStr → Nat) (root : Nat) (hroot : root ∈ g.ids)
    (hreach : ∀ n ∈ g.ids, g.Reach root n) :
    ∀ v ∈ g.ids, g.nidPkgSize cost v ≤ computePathto g cost root v := by
  intro v hv
  rw [computePathto_localEq g hwf hacyc cost root hroot hreach v hv]
  omega

/-! ## Weight assignment (`computeEdgeWeights` / `EdgeWeight`) -/

/-- Model of `EdgeWeight`: parse the decimal `label` attribute of an
edge; a missing or non-numeric label is an error. -/
def EdgeWeight (e : Edge) : Except Unit Nat :=
  match scanDec (getAttr e.attrs "label") with
  | some wt => Except.ok wt
  | none => Except.error ()

/-- Model of `computeEdgeWeights`: after the (cache-warming) parallel
size pass, the sequential loop visits every node and each of its
out-edges, setting the edge's attributes to a fresh map holding the
decimal rendering of the sink's resolved size.  Each edge is written
exactly once, so the Go map iteration order does not affect the
result; size queries are assumed to succeed (the pure `cost`). -/
def computeEdgeWeights (g : ZGraph) (cost : GoStr → Nat) : ZGraph :=
  { g with edges :=
      g.edges.map (fun e =>
        { e with attrs := [("label", formatDec (g.nidPkgSize cost e.sink))] }) }

/-- After weight assignment, reading any edge back yields exactly the
size resolved for the edge's sink. -/
theorem computeEdgeWeights_read (g : ZGraph) (cost : GoStr → Nat) :
    ∀ e ∈ (computeEdgeWeights g cost).edges,
      EdgeWeight e =
        Except.ok ((computeEdgeWeights g cost).nidPkgSize cost e.sink) := by
  intro e he
  rw [computeEdgeWeights] at he
  simp only [List.mem_map] at he
  obtain ⟨e0, _, he0⟩ := he
  subst he0
  have hval : getAttr ({ e0 with attrs :=
      [("label", formatDec (g.nidPkgSize cost e0.sink))] } : Edge).attrs "label" =
      formatDec (g.nidPkgSize cost e0.sink) := rfl
  rw [EdgeWeight, hval, scanDec_formatDec]
  rfl

/-- Structure (nodes, edge endpoints) is untouched by weight
assignment. -/
theorem computeEdgeWeights_gnodes (g : ZGraph) (cost : GoStr → Nat) :
    (computeEdgeWeights g cost).gnodes = g.gnodes := rfl

/-! ## Pass 3: path reconstruction (`traceCritical`) -/

/-- `pathsegment`: node id, its (quoted) package label, and the
incoming edge weight. -/
structure pathsegment where
  nid : Nat
  pkg : GoStr
  wt : Nat
deriving DecidableEq, Repr

/-- The best-successor scan over a node's out-edges:
`(bestsucc, bestpt, bestwt)` (initially zero: Go zero values), updated
when a sink's `pathto` strictly exceeds the running best; any
unreadable edge weight aborts with an error.  (The scanned `attrs`
variable only serves to paint the chosen edge red afterwards, which
does not affect the traced path, and is omitted.) -/
def bestScan (g : ZGraph) (pathto : Nat → Nat) :
    List Edge → Nat × Nat × Nat → Except Unit (Nat × Nat × Nat)
  | [], best => Except.ok best
  | e :: es, (bestsucc, bestpt, bestwt) =>
    match EdgeWeight e with
    | Except.error err => Except.error err
    | Except.ok wt =>
      if bestpt < pathto e.sink then
        bestScan g pathto es (e.sink, pathto e.sink, wt)
      else
        bestScan g pathto es (bestsucc, bestpt, bestwt)

/-- Outcome of one iteration of the reconstruction loop. -/
inductive StepRes
  | finish
  | panic
  | errw
  | next (bestsucc : Nat) (bestwt : Nat)
deriving DecidableEq, Repr

/-- One iteration of the `traceCritical` loop at the current node:
stop on a node without out-edges; otherwise scan for the best
successor, panic if its `pathto` is zero, and continue through it. -/
def traceStep (g : ZGraph) (pathto : Nat → Nat) (cur : Nat) : StepRes :=
  if g.outEdges cur = [] then StepRes.finish
  else
    match bestScan g pathto (g.outEdges cur) (0, 0, 0) with
    | Except.error _ => StepRes.errw
    | Except.ok (bestsucc, bestpt, bestwt) =>
      if bestpt = 0 then StepRes.panic
      else StepRes.next bestsucc bestwt

/-- Result of the whole reconstruction. -/
inductive TraceRes
  | ok (cp : List pathsegment)
  | panicked
  | err
  | fuelout
deriving DecidableEq, Repr

/-- The reconstruction loop, with explicit fuel for the Go `for`. -/
def traceLoop (g : ZGraph) (pathto : Nat → Nat) :
    Nat → Nat → List pathsegment → TraceRes
  | 0, _, _ => TraceRes.fuelout
  | fuel + 1, cur, cp =>
    match traceStep g pathto cur with
    | StepRes.finish => TraceRes.ok cp
    | StepRes.panic => TraceRes.panicked
    | StepRes.errw => TraceRes.err
    | StepRes.next bs bw =>
      traceLoop g pathto fuel bs (cp ++ [⟨bs, g.labelOf bs, bw⟩])

/-- Model of `traceCritical` (the traced path: the `included` set and
edge painting do not affect the returned path, and the cache write and
console output are I/O). -/
def traceCritical (g : ZGraph) (rootnid : Nat) (pathto : Nat → Nat) : TraceRes :=
  traceLoop g pathto (g.gnodes.length + 1) rootnid
    [⟨rootnid, g.labelOf rootnid, 0⟩]

/-- Model of `markCriticalPaths`: topological sort, the longest-path
pass, then reconstruction (the sorted debug listing does not affect
the result). -/
def markCriticalPaths (g : ZGraph) (cost : GoStr → Nat) (nid : Nat) : TraceRes :=
  traceCritical g nid (computePathto g cost nid)

/-- The node sequence visited by a segment list. -/
def cpNodes (cp : List pathsegment) : List Nat := cp.map pathsegment.nid

theorem le_maxPt (pt : Nat → Nat) : ∀ (l : List Nat), ∀ s ∈ l, pt s ≤ maxPt pt l := by
  intro l
  induction l with
  | nil => intro s hs; cases hs
  | cons a l ih =>
    intro s hs
    rcases List.mem_cons.mp hs with h | h
    · subst h
      simp only [maxPt, List.map_cons, List.foldr_cons]
      omega
    · have := ih s h
      simp only [maxPt, List.map_cons, List.foldr_cons] at this ⊢
      omega

/-- Specification of the best-successor scan when every edge weight is
readable: it succeeds, the final best value is the running maximum of
the sinks' `pathto`, and a strictly improved best names a sink
achieving it. -/
theorem bestScan_spec (g : ZGraph) (pathto : Nat → Nat) :
    ∀ (l : List Edge) (s0 p0 w0 : Nat),
      (∀ e ∈ l, ∃ w, EdgeWeight e = Except.ok w) →
      ∃ bs bp bw, bestScan g pathto l (s0, p0, w0) = Except.ok (bs, bp, bw) ∧
        bp = max p0 (maxPt pathto (l.map Edge.sink)) ∧
        ((bs = s0 ∧ bp = p0 ∧ bw = w0) ∨
          (∃ e ∈ l, bs = e.sink ∧ bp = pathto e.sink)) := by
  intro l
  induction l with
  | nil =>
    intro s0 p0 w0 _
    refine ⟨s0, p0, w0, rfl, ?_, Or.inl ⟨rfl, rfl, rfl⟩⟩
    simp [maxPt]
  | cons e es ih =>
    intro s0 p0 w0 hl
    obtain ⟨w, hw⟩ := hl e (List.mem_cons_self _ _)
    have hes : ∀ e2 ∈ es, ∃ w2, EdgeWeight e2 = Except.ok w2 :=
      fun e2 he2 => hl e2 (List.mem_cons_of_mem _ he2)
    rw [bestScan, hw]
    dsimp only
    by_cases hlt : p0 < pathto e.sink
    · rw [if_pos hlt]
      obtain ⟨bs, bp, bw, heq, hbp, hch⟩ := ih e.sink (pathto e.sink) w hes
      refine ⟨bs, bp, bw, heq, ?_, ?_⟩
      · rw [hbp]
        simp only [List.map_cons, maxPt, List.foldr_cons]
        clear hch heq
        generalize List.foldr max 0 (List.map pathto (List.map Edge.sink es)) = X
        omega
      · rcases hch with ⟨h1, h2, _⟩ | ⟨e2, he2, h1, h2⟩
        · exact Or.inr ⟨e, List.mem_cons_self _ _, h1, h2⟩
        · exact Or.inr ⟨e2, List.mem_cons_of_mem _ he2, h1, h2⟩
    · rw [if_neg hlt]
      obtain ⟨bs, bp, bw, heq, hbp, hch⟩ := ih s0 p0 w0 hes
      refine ⟨bs, bp, bw, heq, ?_, ?_⟩
      · rw [hbp]
        simp only [List.map_cons, maxPt, List.foldr_cons]
        clear hch heq
        generalize List.foldr max 0 (List.map pathto (List.map Edge.sink es)) = X
        omega
      · rcases hch with ⟨h1, h2, h3⟩ | ⟨e2, he2, h1, h2⟩
        · exact Or.inl ⟨h1, h2, h3⟩
        · exact Or.inr ⟨e2, List.mem_cons_of_mem _ he2, h1, h2⟩

theorem mem_edges_of_mem_outEdges {g : ZGraph} {e : Edge} {cur : Nat}
    (h : e ∈ g.outEdges cur) : e ∈ g.edges ∧ e.src = cur := by
  rw [ZGraph.outEdges, List.mem_filter, decide_eq_true_eq] at h
  exact h

/-- Trichotomy of one reconstruction iteration when all out-edge
weights are readable: stop at a node without out-edges; panic when the
largest successor `pathto` is zero; otherwise step to a successor
achieving that (nonzero) maximum. -/
theorem traceStep_cases (g : ZGraph) (pathto : Nat → Nat) (cur : Nat)
    (hl : ∀ e ∈ g.outEdges cur, ∃ w, EdgeWeight e = Except.ok w) :
    (g.outEdges cur = [] ∧ traceStep g pathto cur = StepRes.finish) ∨
    (g.outEdges cur ≠ [] ∧ maxPt pathto (g.succs cur) = 0 ∧
      traceStep g pathto cur = StepRes.panic) ∨
    (g.outEdges cur ≠ [] ∧ ∃ bs bw,
      traceStep g pathto cur = StepRes.next bs bw ∧
      g.edgeRel cur bs ∧ pathto bs = maxPt pathto (g.succs cur) ∧
      pathto bs ≠ 0) := by
  rw [traceStep]
  by_cases hne : g.outEdges cur = []
  · exact Or.inl ⟨hne, by rw [if_pos hne]⟩
  · rw [if_neg hne]
    obtain ⟨bs, bp, bw, heq, hbp, hch⟩ :=
      bestScan_spec g pathto (g.outEdges cur) 0 0 0 hl
    rw [heq]
    dsimp only
    have hsucc : maxPt pathto (g.succs cur) =
        maxPt pathto ((g.outEdges cur).map Edge.sink) := rfl
    have hbp' : bp = maxPt pathto (g.succs cur) := by
      rw [hsucc, hbp]
      exact Nat.zero_max _
    by_cases hz : bp = 0
    · rw [if_pos hz]
      exact Or.inr (Or.inl ⟨hne, by rw [← hbp', hz], rfl⟩)
    · rw [if_neg hz]
      rcases hch with ⟨_, h2, _⟩ | ⟨e, he, h1, h2⟩
      · exact absurd h2 hz
      · refine Or.inr (Or.inr ⟨hne, bs, bw, rfl, ?_, ?_, ?_⟩)
        · obtain ⟨hee, hsrc⟩ := mem_edges_of_mem_outEdges he
          exact ⟨e, hee, hsrc, h1.symm⟩
        · rw [h1, ← h2, ← hbp']
        · rw [h1, ← h2]
          exact fun hx => hz (hx ▸ h2.symm ▸ rfl)

/-- One iteration panics exactly when the node has out-edges but every
successor's `pathto` is zero (given readable edge weights). -/
theorem traceStep_panic_iff (g : ZGraph) (pathto : Nat → Nat) (cur : Nat)
    (hl : ∀ e ∈ g.outEdges cur, ∃ w, EdgeWeight e = Except.ok w) :
    traceStep g pathto cur = StepRes.panic ↔
      (g.outEdges cur ≠ [] ∧ maxPt pathto (g.succs cur) = 0) := by
  rcases traceStep_cases g pathto cur hl with ⟨he, hs⟩ | ⟨hne, hmax, hs⟩ |
    ⟨hne, bs, bw, hs, _, hbs, hbs0⟩
  · rw [hs]
    constructor
    · intro hc; cases hc
    · rintro ⟨hne, _⟩; exact absurd he hne
  · rw [hs]
    exact ⟨fun _ => ⟨hne, hmax⟩, fun _ => rfl⟩
  · rw [hs]
    constructor
    · intro hc; cases hc
    · rintro ⟨_, hmax⟩
      exact absurd (hbs.trans hmax) hbs0

/-- Every successful run of the reconstruction loop extends the
accumulated path by a walk along graph edges ending at a node without
out-edges, whose total own-cost equals `pathto` at the start node. -/
theorem traceLoop_ok_spec (g : ZGraph) (hwf : g.WF) (hacyc : g.Acyclic)
    (cost : GoStr → Nat) (root : Nat) (hroot : root ∈ g.ids)
    (hreach : ∀ n ∈ g.ids, g.Reach root n)
    (hlabels : ∀ e ∈ g.edges, ∃ w, EdgeWeight e = Except.ok w) :
    ∀ (fuel cur : Nat) (cp res : List pathsegment), cur ∈ g.ids →
      traceLoop g (computePathto g cost root) fuel cur cp = TraceRes.ok res →
      ∃ q, res = cp ++ q ∧
        List.Chain' g.edgeRel (cur :: cpNodes q) ∧
        g.outEdges ((cur :: cpNodes q).getLast (List.cons_ne_nil _ _)) = [] ∧
        ((cur :: cpNodes q).map (g.nidPkgSize cost)).sum =
          computePathto g cost root cur := by
  intro fuel
  induction fuel with
  | zero =>
    intro cur cp res _ h
    rw [traceLoop] at h
    cases h
  | succ f ih =>
    intro cur cp res hcur h
    rw [traceLoop] at h
    have hlout : ∀ e ∈ g.outEdges cur, ∃ w, EdgeWeight e = Except.ok w :=
      fun e he => hlabels e (mem_edges_of_mem_outEdges he).1
    rcases traceStep_cases g (computePathto g cost root) cur hlout with
      ⟨hemp, hs⟩ | ⟨_, _, hs⟩ | ⟨_, bs, bw, hs, hedge, hbs, _⟩
    · rw [hs] at h
      dsimp only at h
      cases h
      refine ⟨[], by simp [cpNodes], ?_, ?_, ?_⟩
      · exact List.chain'_singleton _
      · simpa [cpNodes] using hemp
      · have hsucc : g.succs cur = [] := by
          rw [ZGraph.succs, hemp, List.map_nil]
        have := computePathto_localEq g hwf hacyc cost root hroot hreach cur hcur
        rw [hsucc] at this
        simp only [maxPt, List.map_nil, List.foldr_nil] at this
        simp [cpNodes, this]
    · rw [hs] at h
      cases h
    · rw [hs] at h
      dsimp only at h
      have hbsids : bs ∈ g.ids := by
        obtain ⟨e, he, _, hsink⟩ := hedge
        exact hsink ▸ (hwf.2 e he).2
      obtain ⟨q, hres, hchain, hlast, hsum⟩ :=
        ih bs (cp ++ [⟨bs, g.labelOf bs, bw⟩]) res hbsids h
      refine ⟨⟨bs, g.labelOf bs, bw⟩ :: q, ?_, ?_, ?_, ?_⟩
      · rw [hres, List.append_assoc]
        rfl
      · rw [cpNodes, List.map_cons]
        rw [List.chain'_cons]
        exact ⟨hedge, hchain⟩
      · rw [cpNodes, List.map_cons]
        rw [List.getLast_cons (List.cons_ne_nil _ _)]
        exact hlast
      · have hnid : cpNodes (⟨bs, g.labelOf bs, bw⟩ :: q) = bs :: cpNodes q := rfl
        rw [hnid]
        simp only [List.map_cons, List.sum_cons] at hsum ⊢
        have hloc := computePathto_localEq g hwf hacyc cost root hroot hreach cur hcur
        rw [hloc, ← hbs]
        omega

/-- With every node cost strictly positive, the reconstruction loop
never reaches the panic branch from any reachable node. -/
theorem traceLoop_no_panic (g : ZGraph) (hwf : g.WF) (hacyc : g.Acyclic)
    (cost : GoStr → Nat) (root : Nat) (hroot : root ∈ g.ids)
    (hreach : ∀ n ∈ g.ids, g.Reach root n)
    (hlabels : ∀ e ∈ g.edges, ∃ w, EdgeWeight e = Except.ok w)
    (hpos : ∀ v ∈ g.ids, 1 ≤ g.nidPkgSize cost v) :
    ∀ (fuel cur : Nat) (cp : List pathsegment), cur ∈ g.ids →
      traceLoop g (computePathto g cost root) fuel cur cp ≠
        TraceRes.panicked := by
  intro fuel
  induction fuel with
  | zero =>
    intro cur cp _ h
    rw [traceLoop] at h
    cases h
  | succ f ih =>
    intro cur cp hcur h
    rw [traceLoop] at h
    have hlout : ∀ e ∈ g.outEdges cur, ∃ w, EdgeWeight e = Except.ok w :=
      fun e he => hlabels e (mem_edges_of_mem_outEdges he).1
    rcases traceStep_cases g (computePathto g cost root) cur hlout with
      ⟨_, hs⟩ | ⟨hne, hmax, _⟩ | ⟨_, bs, bw, hs, hedge, _, _⟩
    · rw [hs] at h
      cases h
    · obtain ⟨e, he⟩ := List.exists_mem_of_ne_nil _ hne
      obtain ⟨hee, hsrc⟩ := mem_edges_of_mem_outEdges he
      have hsink_ids : e.sink ∈ g.ids := (hwf.2 e hee).2
      have h1 : 1 ≤ computePathto g cost root e.sink :=
        le_trans (hpos _ hsink_ids)
          (computePathto_ge_cost g hwf hacyc cost root hroot hreach e.sink hsink_ids)
      have hmem : e.sink ∈ g.succs cur := by
        rw [ZGraph.succs]
        exact List.mem_map_of_mem _ he
      have h2 := le_maxPt (computePathto g cost root) (g.succs cur) e.sink hmem
      omega
    · rw [hs] at h
      dsimp only at h
      exact ih bs (cp ++ [⟨bs, g.labelOf bs, bw⟩]) (by
        obtain ⟨e, he, _, hsink⟩ := hedge
        exact hsink ▸ (hwf.2 e he).2) h

/-! ## Graph construction (`populateNode`)

The warm-up loop of `populateNode` only pre-populates the query cache
(fire-and-forget goroutines joined before the sequential loop); with
the resolver modelled as the pure `golist` oracle it has no observable
effect and is omitted.  The node id string `"N%d"` is the numeric
index. -/

/-- `go list` metadata (`Pkg`), restricted to the fields used. -/
structure Pkg where
  Standard : Bool
  ImportPath : GoStr
  Root : GoStr
  Imports : List GoStr
deriving DecidableEq, Repr

/-- The builder state: the `pgraph.nodes` map (package → index, in
insertion order) over the `zgr` graph. -/
structure PGraph where
  nodes : List (GoStr × Nat)
  zg : ZGraph
deriving DecidableEq, Repr

/-- Model of `pskip`: drop `"unsafe"` (unless included) and `"C"`. -/
def pskip (inuns : Bool) (dep : GoStr) : Bool :=
  (!inuns && dep = "unsafe".toList) || dep = "C".toList

/-- Result of population: the new node's id and graph, a resolver or
`MakeNode` failure, one of the two panic branches, or exhausted fuel. -/
inductive PopRes
  | ok (snid : Nat) (g : PGraph)
  | fail
  | panicInsert
  | panicLookup
  | fuelout
deriving DecidableEq, Repr

/-- `AddEdge(snid, g.snid(dep), nil)`. -/
def addEdge (g : PGraph) (src sink : Nat) : PGraph :=
  ⟨g.nodes, ⟨g.zg.gnodes, g.zg.edges ++ [⟨src, sink, []⟩]⟩⟩

/-- One iteration of the sequential dependency loop of
`populateNode`: skip a pseudo-dependency, resolve the dependency
(failing on error), skip standard packages under `-nostd`, recurse via
`recur` when the dependency is not yet a node, then add the edge to
the dependency's id (`g.snid(dep)` panics on a missing entry). -/
def popBody (golist : GoStr → Option Pkg) (inuns nostd : Bool)
    (recur : GoStr → PGraph → PopRes) (acc : PopRes) (dep : GoStr) : PopRes :=
  match acc with
  | PopRes.ok snid gacc =>
    if pskip inuns dep then acc
    else
      match golist dep with
      | none => PopRes.fail
      | some pk2 =>
        if nostd && pk2.Standard then acc
        else
          match (if (gacc.nodes.lookup dep).isSome then PopRes.ok snid gacc
            else recur dep gacc) with
          | PopRes.ok _ g2 =>
            match g2.nodes.lookup dep with
            | some depnid => PopRes.ok snid (addEdge g2 snid depnid)
            | none => PopRes.panicLookup
          | r => r
  | r => r

/-- Model of `populateNode`: panic if the identity is already a node;
insert it (package map and `zgr` node with quoted label, `MakeNode`
failing on a duplicate id); resolve its imports; then run the
sequential dependency loop. -/
def populateNode (golist : GoStr → Option Pkg) (inuns nostd : Bool) :
    Nat → GoStr → PGraph → PopRes
  | 0, _, _ => PopRes.fuelout
  | fuel + 1, tgt, g =>
    if (g.nodes.lookup tgt).isSome then PopRes.panicInsert
    else
      if (g.zg.gnodes.lookup g.nodes.length).isSome then PopRes.fail
      else
        match golist tgt with
        | none => PopRes.fail
        | some pk =>
          pk.Imports.foldl
            (popBody golist inuns nostd
              (fun dep gacc => populateNode golist inuns nostd fuel dep gacc))
            (PopRes.ok g.nodes.length
              ⟨g.nodes ++ [(tgt, g.nodes.length)],
                ⟨g.zg.gnodes ++ [(g.nodes.length, quoteLabel tgt)], g.zg.edges⟩⟩)

/-- The package keys of the builder map, in insertion order. -/
def PGraph.keys (g : PGraph) : List GoStr := g.nodes.map Prod.fst

theorem lookup_none_iff {α : Type} [BEq α] [LawfulBEq α] {β : Type} (a : α) :
    ∀ l : List (α × β), l.lookup a = none ↔ ∀ b ∈ l, b.1 ≠ a := by
  intro l
  induction l with
  | nil => simp
  | cons p l ih =>
    rw [List.lookup]
    by_cases hpa : a = p.1
    · have : (a == p.1) = true := by simpa using hpa
      rw [this]
      simp only [List.mem_cons]
      constructor
      · intro h; cases h
      · intro h
        exact absurd hpa.symm (h p (Or.inl rfl))
    · have : (a == p.1) = false := by simpa using hpa
      rw [this]
      simp only [List.mem_cons, ih]
      constructor
      · intro h b hb
        rcases hb with hb | hb
        · exact hb ▸ fun hc => hpa hc.symm
        · exact h b hb
      · intro h b hb
        exact h b (Or.inr hb)

/-- Invariant of the dependency fold relative to the graph `g0` seen
at entry: the insert-panic branch is not produced, and any successful
state has duplicate-free keys extending `g0`'s. -/
def PopOk (g0 : PGraph) (r : PopRes) : Prop :=
  r ≠ PopRes.panicInsert ∧
  ∀ snid g', r = PopRes.ok snid g' →
    g'.keys.Nodup ∧ ∃ d, g'.keys = g0.keys ++ d

theorem addEdge_keys (g : PGraph) (src sink : Nat) :
    (addEdge g src sink).keys = g.keys := rfl

theorem popOk_fail (g0 : PGraph) : PopOk g0 PopRes.fail :=
  ⟨fun h => (nomatch h), fun _ _ h => (nomatch h)⟩

theorem popOk_panicLookup (g0 : PGraph) : PopOk g0 PopRes.panicLookup :=
  ⟨fun h => (nomatch h), fun _ _ h => (nomatch h)⟩

theorem popOk_fuelout (g0 : PGraph) : PopOk g0 PopRes.fuelout :=
  ⟨fun h => (nomatch h), fun _ _ h => (nomatch h)⟩

theorem popBody_popOk (golist : GoStr → Option Pkg) (inuns nostd : Bool)
    (recur : GoStr → PGraph → PopRes) (g0 : PGraph)
    (hrec : ∀ dep gacc, gacc.keys.Nodup → gacc.nodes.lookup dep = none →
      PopOk gacc (recur dep gacc)) :
    ∀ (acc : PopRes) (dep : GoStr), PopOk g0 acc →
      PopOk g0 (popBody golist inuns nostd recur acc dep) := by
  intro acc dep hacc
  cases acc with
  | ok snid gacc =>
    obtain ⟨hgnd, hgext⟩ := hacc.2 snid gacc rfl
    rw [popBody]
    by_cases hsk : pskip inuns dep
    · rw [if_pos hsk]; exact hacc
    · rw [if_neg hsk]
      cases hgl : golist dep with
      | none =>
        dsimp only
        exact popOk_fail g0
      | some pk2 =>
        dsimp only
        by_cases hstd : (nostd && pk2.Standard) = true
        · rw [if_pos hstd]; exact hacc
        · rw [if_neg hstd]
          by_cases hmem : (gacc.nodes.lookup dep).isSome
          · rw [if_pos hmem]
            dsimp only
            cases hdl : gacc.nodes.lookup dep with
            | some depnid =>
              dsimp only
              refine ⟨fun h => (nomatch h), fun s g h => ?_⟩
              cases h
              rw [addEdge_keys]
              exact ⟨hgnd, hgext⟩
            | none => rw [hdl] at hmem; cases hmem
          · rw [if_neg hmem]
            have hnone : gacc.nodes.lookup dep = none :=
              Option.not_isSome_iff_eq_none.mp hmem
            have hr := hrec dep gacc hgnd hnone
            cases hres : recur dep gacc with
            | ok s2 g2 =>
              dsimp only
              obtain ⟨hg2nd, d2, hg2ext⟩ := hr.2 s2 g2 hres
              cases hdl : g2.nodes.lookup dep with
              | some depnid =>
                dsimp only
                refine ⟨fun h => (nomatch h), fun s g h => ?_⟩
                cases h
                rw [addEdge_keys]
                obtain ⟨d1, hd1⟩ := hgext
                exact ⟨hg2nd, d1 ++ d2, by rw [hg2ext, hd1, List.append_assoc]⟩
              | none =>
                dsimp only
                exact popOk_panicLookup g0
            | fail => exact popOk_fail g0
            | panicInsert => exact absurd hres hr.1
            | panicLookup => exact popOk_panicLookup g0
            | fuelout => exact popOk_fuelout g0
  | fail => exact hacc
  | panicInsert => exact hacc
  | panicLookup => exact hacc
  | fuelout => exact hacc

theorem popFold_popOk (golist : GoStr → Option Pkg) (inuns nostd : Bool)
    (recur : GoStr → PGraph → PopRes) (g0 : PGraph)
    (hrec : ∀ dep gacc, gacc.keys.Nodup → gacc.nodes.lookup dep = none →
      PopOk gacc (recur dep gacc)) :
    ∀ (deps : List GoStr) (acc : PopRes), PopOk g0 acc →
      PopOk g0 (deps.foldl (popBody golist inuns nostd recur) acc) := by
  intro deps
  induction deps with
  | nil => intro acc hacc; exact hacc
  | cons dep deps ih =>
    intro acc hacc
    rw [List.foldl_cons]
    exact ih _ (popBody_popOk golist inuns nostd recur g0 hrec acc dep hacc)

/-- `populateNode` from a state with duplicate-free keys that does not
yet contain the target never reaches the insert-panic branch, and on
success leaves a key list that is still duplicate-free (one node per
identity). -/
theorem populateNode_popOk (golist : GoStr → Option Pkg) (inuns nostd : Bool) :
    ∀ (fuel : Nat) (tgt : GoStr) (g : PGraph),
      g.keys.Nodup → g.nodes.lookup tgt = none →
      PopOk g (populateNode golist inuns nostd fuel tgt g) := by
  intro fuel
  induction fuel with
  | zero =>
    intro tgt g _ _
    rw [populateNode]
    exact popOk_fuelout g
  | succ f ih =>
    intro tgt g hnd hlk
    rw [populateNode]
    rw [if_neg (by simp [hlk])]
    by_cases hmk : (g.zg.gnodes.lookup g.nodes.length).isSome
    · rw [if_pos hmk]
      exact popOk_fail g
    · rw [if_neg hmk]
      cases hgl : golist tgt with
      | none => exact popOk_fail g
      | some pk =>
        have htgt : tgt ∉ g.keys := by
          intro hmem
          rw [PGraph.keys, List.mem_map] at hmem
          obtain ⟨b, hb, hb1⟩ := hmem
          exact ((lookup_none_iff tgt g.nodes).mp hlk b hb) hb1
        have hinit : PopOk g (PopRes.ok g.nodes.length
            ⟨g.nodes ++ [(tgt, g.nodes.length)],
              ⟨g.zg.gnodes ++ [(g.nodes.length, quoteLabel tgt)], g.zg.edges⟩⟩) := by
          refine ⟨fun h => (nomatch h), fun s g2 h => ?_⟩
          cases h
          have hk : (PGraph.mk (g.nodes ++ [(tgt, g.nodes.length)])
              ⟨g.zg.gnodes ++ [(g.nodes.length, quoteLabel tgt)], g.zg.edges⟩).keys =
              g.keys ++ [tgt] := by
            rw [PGraph.keys, PGraph.keys, List.map_append]
            rfl
          rw [hk]
          refine ⟨?_, [tgt], rfl⟩
          rw [List.nodup_append]
          exact ⟨hnd, List.nodup_singleton _,
            fun a ha hb => by rw [List.mem_singleton] at hb; exact htgt (hb ▸ ha)⟩
        exact popFold_popOk golist inuns nostd _ g
          (fun dep gacc h1 h2 => ih dep gacc h1 h2) pk.Imports _ hinit

/-! ## The two-tier cache (`cacheValid` / `tryCache` / `goList` /
`pkgSize`)

The disk directory is modelled as an explicit state; I/O errors are
not modelled.  Serialization of payloads (JSON for `go list`, the
`"N M"` size line written by `computePkgInfo`) is modelled as typed
storage with an identity round-trip, and the `"%s %s\n"` fingerprint
record together with its `TrimSpace` read-back is modelled as storing
the combined fingerprint string itself. -/

/-- Payloads persisted in per-key cache files. -/
inductive CacheVal
  | pkgv (p : Pkg)
  | sizev (sz nf : Nat)
  | strv (s : GoStr)
deriving DecidableEq, Repr

/-- The on-disk cache directory: existence, the `=glo=` fingerprint
record, and the per-key entry files. -/
structure FS where
  dirExists : Bool
  glofile : Option GoStr
  entries : List (GoStr × CacheVal)
deriving DecidableEq, Repr

/-- Model of the path sanitization in `cachePath`: every `/` becomes
`%`. -/
def sanitizeKey (dir : GoStr) : GoStr :=
  dir.map (fun c => if c = '/' then '%' else c)

/-- Model of `cachePath`: `<sanitized dir>.<tag>`. -/
def cachePath (dir tag : GoStr) : GoStr := sanitizeKey dir ++ '.' :: tag

/-- Model of `initCache`: (re)write the fingerprint record. -/
def initCache (want : GoStr) (fs : FS) : FS := { fs with glofile := some want }

/-- Model of `os.Mkdir`: report whether the directory was created. -/
def mkdirFS (fs : FS) : Bool × FS :=
  if fs.dirExists then (false, fs) else (true, { fs with dirExists := true })

/-- Model of `cacheValid`: a missing fingerprint record is an invalid
(uninitialized) cache; a mismatched one discards the entire directory
(`os.RemoveAll`) and recreates it empty (`os.Mkdir`); a matching one
validates the cache. -/
def cacheValid (want : GoStr) (fs : FS) : Bool × FS :=
  match fs.glofile with
  | none => (false, fs)
  | some val =>
    if val = want then (true, fs)
    else (false, ⟨true, none, []⟩)

/-- Model of `tryCache`: ensure the directory exists, validate (and
possibly discard) the cache, re-initialize the fingerprint when
needed, then read the entry file — `none` is a cache miss. -/
def tryCache (want dir tag : GoStr) (fs : FS) : Option CacheVal × FS :=
  let created := (mkdirFS fs).1
  let fs1 := (mkdirFS fs).2
  let isvalid := (cacheValid want fs1).1
  let fs2 := (cacheValid want fs1).2
  let fs3 := if created || !isvalid then initCache want fs2 else fs2
  (fs3.entries.lookup (cachePath dir tag), fs3)

/-- Model of `writeCache`: (over)write the entry file; the most recent
write is the one found. -/
def writeCache (dir tag : GoStr) (content : CacheVal) (fs : FS) : FS :=
  { fs with entries := ((cachePath dir tag, content) :: fs.entries) }

/-- Process-wide state of the resolvers: the two in-memory caches, the
disk state, and a count of external tool invocations. -/
structure QState where
  listcache : List (GoStr × Pkg)
  pkgsizecache : List (GoStr × (Nat × Nat))
  fs : FS
  extCalls : Nat
deriving DecidableEq, Repr

/-- Model of `goList`: memory tier, then disk tier (backfilling
memory), then one `go list` invocation (the external oracle `ext`,
counted by `extCalls`) written through to both tiers. -/
def goList (ext : GoStr → Option Pkg) (want dir : GoStr) (st : QState) :
    Except Unit Pkg × QState :=
  match st.listcache.lookup dir with
  | some cpk => (Except.ok cpk, st)
  | none =>
    let out := (tryCache want dir "list".toList st.fs).1
    let fs1 := (tryCache want dir "list".toList st.fs).2
    match out with
    | none =>
      match ext dir with
      | none =>
        (Except.error (), { st with fs := fs1, extCalls := st.extCalls + 1 })
      | some pk =>
        (Except.ok pk,
          { st with
            listcache := ((dir, pk) :: st.listcache)
            fs := writeCache dir "list".toList (CacheVal.pkgv pk) fs1
            extCalls := st.extCalls + 1 })
    | some (CacheVal.pkgv pk) =>
      (Except.ok pk, { st with listcache := ((dir, pk) :: st.listcache), fs := fs1 })
    | some _ => (Except.error (), { st with fs := fs1 })

/-- Model of `pkgSize`: the `"unsafe"` special case first, then memory
tier, then disk tier, then one `go build` plus size measurement (the
external oracle `build`, counted), written through to both tiers.
The `goroot` argument is carried but, as in the source, unused. -/
def pkgSize (build : GoStr → Option (Nat × Nat)) (want dir goroot : GoStr)
    (st : QState) : Except Unit (Nat × Nat) × QState :=
  if dir = "unsafe".toList then (Except.ok (1, 0), st)
  else
    match st.pkgsizecache.lookup dir with
    | some pi => (Except.ok pi, st)
    | none =>
      let out := (tryCache want dir "build".toList st.fs).1
      let fs1 := (tryCache want dir "build".toList st.fs).2
      match out with
      | none =>
        match build dir with
        | none =>
          (Except.error (), { st with fs := fs1, extCalls := st.extCalls + 1 })
        | some pi =>
          (Except.ok pi,
            { st with
              pkgsizecache := ((dir, pi) :: st.pkgsizecache)
              fs := writeCache dir "build".toList (CacheVal.sizev pi.1 pi.2) fs1
              extCalls := st.extCalls + 1 })
      | some (CacheVal.sizev sz nf) =>
        (Except.ok (sz, nf),
          { st with pkgsizecache := ((dir, (sz, nf)) :: st.pkgsizecache), fs := fs1 })
      | some _ => (Except.error (), { st with fs := fs1 })

/-- Fingerprint mismatch wipes everything: the probing call itself
misses, the resulting disk state is freshly initialized with the new
fingerprint and holds no entry at all, and any subsequent read of any
(kind, key) pair also misses. -/
theorem tryCache_mismatch (want v dir tag : GoStr) (fs : FS)
    (hv : fs.glofile = some v) (hne : v ≠ want) :
    (tryCache want dir tag fs).1 = none ∧
    (tryCache want dir tag fs).2 = ⟨true, some want, []⟩ ∧
    ∀ dir2 tag2 : GoStr,
      (tryCache want dir2 tag2 (tryCache want dir tag fs).2).1 = none := by
  have h1 : tryCache want dir tag fs = (none, ⟨true, some want, []⟩) := by
    rw [tryCache]
    cases hd : fs.dirExists
    · simp [mkdirFS, hd, cacheValid, hv, hne, initCache]
    · simp [mkdirFS, hd, cacheValid, hv, hne, initCache]
  refine ⟨by rw [h1], by rw [h1], ?_⟩
  intro dir2 tag2
  rw [h1]
  simp [tryCache, mkdirFS, cacheValid, initCache]

/-- A successful `goList` stores its result in the memory tier. -/
theorem goList_mem_after (ext : GoStr → Option Pkg) (want dir : GoStr)
    (st st' : QState) (pk : Pkg)
    (h : goList ext want dir st = (Except.ok pk, st')) :
    st'.listcache.lookup dir = some pk ∧ st'.extCalls ≤ st.extCalls + 1 := by
  rw [goList] at h
  cases hm : st.listcache.lookup dir with
  | some cpk =>
    rw [hm] at h
    dsimp only at h
    obtain ⟨h1, h2⟩ := Prod.mk.injEq .. ▸ h
    cases h1
    cases h2
    exact ⟨hm, Nat.le_succ _⟩
  | none =>
    rw [hm] at h
    dsimp only at h
    cases hout : (tryCache want dir "list".toList st.fs).1 with
    | none =>
      rw [hout] at h
      dsimp only at h
      cases hext : ext dir with
      | none =>
        rw [hext] at h
        dsimp only at h
        obtain ⟨h1, _⟩ := Prod.mk.injEq .. ▸ h
        cases h1
      | some pk2 =>
        rw [hext] at h
        dsimp only at h
        obtain ⟨h1, h2⟩ := Prod.mk.injEq .. ▸ h
        cases h1
        cases h2
        constructor
        · simp [List.lookup]
        · simp
    | some v =>
      rw [hout] at h
      cases v with
      | pkgv pk2 =>
        dsimp only at h
        obtain ⟨h1, h2⟩ := Prod.mk.injEq .. ▸ h
        cases h1
        cases h2
        constructor
        · simp [List.lookup]
        · simp
      | sizev sz nf =>
        dsimp only at h
        obtain ⟨h1, _⟩ := Prod.mk.injEq .. ▸ h
        cases h1
      | strv s =>
        dsimp only at h
        obtain ⟨h1, _⟩ := Prod.mk.injEq .. ▸ h
        cases h1

/-- Calling `goList` twice for the same identity: the second call is
answered from the memory tier with the identical result and no state
change, and at most one external invocation happens in total. -/
theorem goList_idem (ext : GoStr → Option Pkg) (want dir : GoStr)
    (st st' : QState) (pk : Pkg)
    (h : goList ext want dir st = (Except.ok pk, st')) :
    goList ext want dir st' = (Except.ok pk, st') ∧
    st'.extCalls ≤ st.extCalls + 1 := by
  obtain ⟨hmem, hcalls⟩ := goList_mem_after ext want dir st st' pk h
  refine ⟨?_, hcalls⟩
  rw [goList, hmem]

/-- A successful `pkgSize` stores its result in the memory tier (or
hits the `"unsafe"` special case, which keeps the state unchanged). -/
theorem pkgSize_after (build : GoStr → Option (Nat × Nat))
    (want dir goroot : GoStr) (st st' : QState) (pi : Nat × Nat)
    (h : pkgSize build want dir goroot st = (Except.ok pi, st')) :
    ((dir = "unsafe".toList ∧ pi = (1, 0) ∧ st' = st) ∨
      st'.pkgsizecache.lookup dir = some pi) ∧
    st'.extCalls ≤ st.extCalls + 1 := by
  rw [pkgSize] at h
  by_cases hu : dir = "unsafe".toList
  · rw [if_pos hu] at h
    obtain ⟨h1, h2⟩ := Prod.mk.injEq .. ▸ h
    cases h1
    cases h2
    exact ⟨Or.inl ⟨hu, rfl, rfl⟩, Nat.le_succ _⟩
  · rw [if_neg hu] at h
    cases hm : st.pkgsizecache.lookup dir with
    | some cpi =>
      rw [hm] at h
      dsimp only at h
      obtain ⟨h1, h2⟩ := Prod.mk.injEq .. ▸ h
      cases h1
      cases h2
      exact ⟨Or.inr hm, Nat.le_succ _⟩
    | none =>
      rw [hm] at h
      dsimp only at h
      cases hout : (tryCache want dir "build".toList st.fs).1 with
      | none =>
        rw [hout] at h
        dsimp only at h
        cases hext : build dir with
        | none =>
          rw [hext] at h
          dsimp only at h
          obtain ⟨h1, _⟩ := Prod.mk.injEq .. ▸ h
          cases h1
        | some pi2 =>
          rw [hext] at h
          dsimp only at h
          obtain ⟨h1, h2⟩ := Prod.mk.injEq .. ▸ h
          cases h1
          cases h2
          refine ⟨Or.inr ?_, by simp⟩
          simp [List.lookup]
      | some v =>
        rw [hout] at h
        cases v with
        | pkgv pk2 =>
          dsimp only at h
          obtain ⟨h1, _⟩ := Prod.mk.injEq .. ▸ h
          cases h1
        | sizev sz nf =>
          dsimp only at h
          obtain ⟨h1, h2⟩ := Prod.mk.injEq .. ▸ h
          cases h1
          cases h2
          refine ⟨Or.inr ?_, by simp⟩
          simp [List.lookup]
        | strv s =>
          dsimp only at h
          obtain ⟨h1, _⟩ := Prod.mk.injEq .. ▸ h
          cases h1

/-- Calling `pkgSize` twice for the same identity: the second call is
answered without state change with the identical result, and at most
one external invocation happens in total. -/
theorem pkgSize_idem (build : GoStr → Option (Nat × Nat))
    (want dir goroot : GoStr) (st st' : QState) (pi : Nat × Nat)
    (h : pkgSize build want dir goroot st = (Except.ok pi, st')) :
    pkgSize build want dir goroot st' = (Except.ok pi, st') ∧
    st'.extCalls ≤ st.extCalls + 1 := by
  obtain ⟨hc, hcalls⟩ := pkgSize_after build want dir goroot st st' pi h
  refine ⟨?_, hcalls⟩
  rcases hc with ⟨hu, hpi, hst⟩ | hmem
  · rw [pkgSize, if_pos hu, hpi, hst]
  · rw [pkgSize]
    by_cases hu : dir = "unsafe".toList
    · rw [hu] at hmem ⊢
      rw [if_pos rfl]
      rw [pkgSize] at h
      rw [if_pos hu] at h
      obtain ⟨h1, h2⟩ := Prod.mk.injEq .. ▸ h
      cases h1
      cases h2
      rfl
    · rw [if_neg hu, hmem]

/-! ## Concrete scenario of the spec

The example graph of the README and spec section 8: `P → {Q, R}`,
`Q → {S, T}`, `R → {T}`, with import lists in the spec's order, built
through the graph builder. -/

/-- The metadata resolver of the scenario. -/
def sceneList : GoStr → Option Pkg := fun s =>
  if s = "P".toList then some ⟨false, "P".toList, [], ["Q".toList, "R".toList]⟩
  else if s = "Q".toList then some ⟨false, "Q".toList, [], ["S".toList, "T".toList]⟩
  else if s = "R".toList then some ⟨false, "R".toList, [], ["T".toList]⟩
  else if s = "S".toList then some ⟨false, "S".toList, [], []⟩
  else if s = "T".toList then some ⟨false, "T".toList, [], []⟩
  else none

/-- Costs {P:10, Q:11, R:11, T:29, S:3}. -/
def costA : GoStr → Nat := fun p =>
  if p = "P".toList then 10
  else if p = "Q".toList then 11
  else if p = "R".toList then 11
  else if p = "T".toList then 29
  else if p = "S".toList then 3
  else 0

/-- Costs with S:99 instead. -/
def costB : GoStr → Nat := fun p =>
  if p = "P".toList then 10
  else if p = "Q".toList then 11
  else if p = "R".toList then 11
  else if p = "T".toList then 29
  else if p = "S".toList then 99
  else 0

/-- The `zgr` graph the builder produces for the scenario
(ids: P=0, Q=1, S=2, T=3, R=4). -/
def sceneZG : ZGraph :=
  ⟨[(0, quoteLabel "P".toList), (1, quoteLabel "Q".toList),
    (2, quoteLabel "S".toList), (3, quoteLabel "T".toList),
    (4, quoteLabel "R".toList)],
   [⟨1, 2, []⟩, ⟨1, 3, []⟩, ⟨0, 1, []⟩, ⟨4, 3, []⟩, ⟨0, 4, []⟩]⟩

/-- The scenario graph after weight assignment with `costA`. -/
def sceneWG : ZGraph := computeEdgeWeights sceneZG costA

/-- The same dependency relation with `P`'s imports listed `R` before
`Q` (ids: P=0, R=1, T=2, Q=3, S=4). -/
def sceneListRev : GoStr → Option Pkg := fun s =>
  if s = "P".toList then some ⟨false, "P".toList, [], ["R".toList, "Q".toList]⟩
  else sceneList s

/-- The builder's graph for the reversed import order. -/
def sceneZGRev : ZGraph :=
  ⟨[(0, quoteLabel "P".toList), (1, quoteLabel "R".toList),
    (2, quoteLabel "T".toList), (3, quoteLabel "Q".toList),
    (4, quoteLabel "S".toList)],
   [⟨1, 2, []⟩, ⟨0, 1, []⟩, ⟨3, 4, []⟩, ⟨3, 2, []⟩, ⟨0, 3, []⟩]⟩

/-- A ranking argument for acyclicity of a concrete graph. -/
theorem acyclic_of_rank (g : ZGraph) (r : Nat → Nat)
    (h : ∀ e ∈ g.edges, r e.src < r e.sink) : g.Acyclic := by
  intro n hn
  have hmono : ∀ a b, Relation.TransGen g.edgeRel a b → r a < r b := by
    intro a b hab
    induction hab with
    | single h1 =>
      obtain ⟨e, he, hs, hk⟩ := h1
      exact hs ▸ hk ▸ h e he
    | tail _ h1 ih =>
      obtain ⟨e, he, hs, hk⟩ := h1
      exact lt_trans ih (hs ▸ hk ▸ h e he)
  exact absurd (hmono n n hn) (lt_irrefl _)

theorem sceneZG_acyclic : sceneZG.Acyclic :=
  acyclic_of_rank sceneZG
    (fun n => if n = 0 then 0 else if n = 1 ∨ n = 4 then 1 else 2)
    (by decide)

theorem sceneWG_acyclic : sceneWG.Acyclic :=
  acyclic_of_rank sceneWG
    (fun n => if n = 0 then 0 else if n = 1 ∨ n = 4 then 1 else 2)
    (by decide)

theorem sceneZG_reach : ∀ n ∈ sceneZG.ids, sceneZG.Reach 0 n := by
  intro n hn
  have hids : sceneZG.ids = [0, 1, 2, 3, 4] := rfl
  rw [hids, List.mem_cons, List.mem_cons, List.mem_cons, List.mem_cons,
    List.mem_singleton] at hn
  rcases hn with h | h | h | h | h
  · exact h ▸ Relation.ReflTransGen.refl
  · exact h ▸ Relation.ReflTransGen.single (by decide)
  · exact h ▸ (Relation.ReflTransGen.single
      (show sceneZG.edgeRel 0 1 by decide)).tail (by decide)
  · exact h ▸ (Relation.ReflTransGen.single
      (show sceneZG.edgeRel 0 1 by decide)).tail (by decide)
  · exact h ▸ Relation.ReflTransGen.single (by decide)

theorem sceneWG_reach : ∀ n ∈ sceneWG.ids, sceneWG.Reach 0 n := by
  intro n hn
  have hids : sceneWG.ids = [0, 1, 2, 3, 4] := rfl
  rw [hids, List.mem_cons, List.mem_cons, List.mem_cons, List.mem_cons,
    List.mem_singleton] at hn
  rcases hn with h | h | h | h | h
  · exact h ▸ Relation.ReflTransGen.refl
  · exact h ▸ Relation.ReflTransGen.single (by decide)
  · exact h ▸ (Relation.ReflTransGen.single
      (show sceneWG.edgeRel 0 1 by decide)).tail (by decide)
  · exact h ▸ (Relation.ReflTransGen.single
      (show sceneWG.edgeRel 0 1 by decide)).tail (by decide)
  · exact h ▸ Relation.ReflTransGen.single (by decide)

theorem exists_ok_of_isOk {α β : Type} {x : Except α β}
    (h : x.isOk = true) : ∃ w, x = Except.ok w := by
  cases x with
  | ok w => exact ⟨w, rfl⟩
  | error e => cases h

/-! ## The claims -/

/-- C1 (counterexample): on the spec's scenario graph `P→{Q,R}`,
`Q→{S,T}`, `R→{T}` with costs {P:10, Q:11, R:11, T:29, S:3}, built by
the graph builder with the imports in the listed order, the engine
does not produce the critical path `P→R→T`: the tie
`pathto[Q] = pathto[R] = 40` is broken toward the first-encountered
out-edge of `P` (`P→Q`, inserted first), so the produced path is
`P→Q→T`. -/
theorem C1_counterexample :
    populateNode sceneList false false 6 "P".toList ⟨[], ⟨[], []⟩⟩ =
      PopRes.ok 0 ⟨[("P".toList, 0), ("Q".toList, 1), ("S".toList, 2),
        ("T".toList, 3), ("R".toList, 4)], sceneZG⟩ ∧
    markCriticalPaths sceneWG costA 0 = TraceRes.ok
      [⟨0, quoteLabel "P".toList, 0⟩, ⟨1, quoteLabel "Q".toList, 11⟩,
        ⟨3, quoteLabel "T".toList, 29⟩] ∧
    ([⟨0, quoteLabel "P".toList, 0⟩, ⟨1, quoteLabel "Q".toList, 11⟩,
        ⟨3, quoteLabel "T".toList, 29⟩] : List pathsegment).map pathsegment.pkg ≠
      [quoteLabel "P".toList, quoteLabel "R".toList, quoteLabel "T".toList] := by
  decide

/-- C1 (amended): on the scenario graph the engine produces a
maximum-cost critical path of total cost 10+11+29 = 50 — namely
`P→Q→T` when `P`'s imports are listed `Q` before `R` (the `pathto` tie
at `P` resolves to the first-inserted edge), and `P→R→T` when they are
listed `R` before `Q`; with cost S:99 instead it produces `P→Q→S` with
total cost 10+11+99 = 120, as claimed. -/
theorem C1_amended :
    (markCriticalPaths sceneWG costA 0 = TraceRes.ok
        [⟨0, quoteLabel "P".toList, 0⟩, ⟨1, quoteLabel "Q".toList, 11⟩,
          ⟨3, quoteLabel "T".toList, 29⟩] ∧
      ((cpNodes [⟨0, quoteLabel "P".toList, 0⟩, ⟨1, quoteLabel "Q".toList, 11⟩,
          ⟨3, quoteLabel "T".toList, 29⟩]).map (sceneWG.nidPkgSize costA)).sum = 50) ∧
    (populateNode sceneListRev false false 6 "P".toList ⟨[], ⟨[], []⟩⟩ =
        PopRes.ok 0 ⟨[("P".toList, 0), ("R".toList, 1), ("T".toList, 2),
          ("Q".toList, 3), ("S".toList, 4)], sceneZGRev⟩ ∧
      markCriticalPaths (computeEdgeWeights sceneZGRev costA) costA 0 = TraceRes.ok
        [⟨0, quoteLabel "P".toList, 0⟩, ⟨1, quoteLabel "R".toList, 11⟩,
          ⟨2, quoteLabel "T".toList, 29⟩] ∧
      ((cpNodes [⟨0, quoteLabel "P".toList, 0⟩, ⟨1, quoteLabel "R".toList, 11⟩,
          ⟨2, quoteLabel "T".toList, 29⟩]).map
        ((computeEdgeWeights sceneZGRev costA).nidPkgSize costA)).sum = 50) ∧
    (markCriticalPaths (computeEdgeWeights sceneZG costB) costB 0 = TraceRes.ok
        [⟨0, quoteLabel "P".toList, 0⟩, ⟨1, quoteLabel "Q".toList, 11⟩,
          ⟨2, quoteLabel "S".toList, 99⟩] ∧
      ((cpNodes [⟨0, quoteLabel "P".toList, 0⟩, ⟨1, quoteLabel "Q".toList, 11⟩,
          ⟨2, quoteLabel "S".toList, 99⟩]).map
        ((computeEdgeWeights sceneZG costB).nidPkgSize costB)).sum = 120) := by
  decide

/-- C2: after the longest-path pass of `markCriticalPaths` over an
acyclic well-formed graph whose nodes are all reachable from the
root, `pathto[leaf]` equals the leaf's own cost for every node without
out-edges, `pathto[node]` equals the node's own cost plus the maximum
of `pathto` over its successors when it has out-edges, and hence
`pathto[node]` is at least the node's own cost. -/
theorem C2_pathto_equations (g : ZGraph) (hwf : g.WF) (hacyc : g.Acyclic)
    (cost : GoStr → Nat) (root : Nat) (hroot : root ∈ g.ids)
    (hreach : ∀ n ∈ g.ids, g.Reach root n) (v : Nat) (hv : v ∈ g.ids) :
    (g.outEdges v = [] → computePathto g cost root v = g.nidPkgSize cost v) ∧
    (g.outEdges v ≠ [] →
      computePathto g cost root v =
        g.nidPkgSize cost v + maxPt (computePathto g cost root) (g.succs v)) ∧
    g.nidPkgSize cost v ≤ computePathto g cost root v := by
  have hloc := computePathto_localEq g hwf hacyc cost root hroot hreach v hv
  refine ⟨?_, fun _ => hloc, by omega⟩
  intro hemp
  have hsucc : g.succs v = [] := by rw [ZGraph.succs, hemp, List.map_nil]
  rw [hloc, hsucc]
  simp [maxPt]

/-- C2 witness: on the scenario graph, the leaf `T` (id 3) has
`pathto = 29`, its own cost. -/
theorem C2_witness :
    computePathto sceneZG costA 0 3 = sceneZG.nidPkgSize costA 3 ∧
    sceneZG.nidPkgSize costA 3 ≤ computePathto sceneZG costA 0 3 :=
  ⟨(C2_pathto_equations sceneZG (by decide) sceneZG_acyclic costA 0 (by decide)
      sceneZG_reach 3 (by decide)).1 (by decide),
    (C2_pathto_equations sceneZG (by decide) sceneZG_acyclic costA 0 (by decide)
      sceneZG_reach 3 (by decide)).2.2⟩

/-- C3: whenever the engine returns a reconstructed path on a
weighted (readable edge labels) well-formed acyclic graph whose nodes
are all reachable from the root, that path starts at the root, walks
only along edges of the graph, ends at a node without outgoing edges,
and the sum of the visited nodes' own costs equals `pathto[root]`. -/
theorem C3_trace_walk (g : ZGraph) (hwf : g.WF) (hacyc : g.Acyclic)
    (cost : GoStr → Nat) (root : Nat) (hroot : root ∈ g.ids)
    (hreach : ∀ n ∈ g.ids, g.Reach root n)
    (hlabels : ∀ e ∈ g.edges, (EdgeWeight e).isOk = true)
    (cp : List pathsegment)
    (h : markCriticalPaths g cost root = TraceRes.ok cp) :
    ∃ q, cpNodes cp = root :: q ∧
      List.Chain' g.edgeRel (root :: q) ∧
      g.outEdges ((root :: q).getLast (List.cons_ne_nil _ _)) = [] ∧
      ((root :: q).map (g.nidPkgSize cost)).sum =
        computePathto g cost root root := by
  rw [markCriticalPaths, traceCritical] at h
  obtain ⟨q0, hres, hchain, hlast, hsum⟩ :=
    traceLoop_ok_spec g hwf hacyc cost root hroot hreach
      (fun e he => exists_ok_of_isOk (hlabels e he))
      (g.gnodes.length + 1) root [⟨root, g.labelOf root, 0⟩] cp hroot h
  refine ⟨cpNodes q0, ?_, hchain, hlast, hsum⟩
  rw [hres, cpNodes, List.map_append]
  rfl

/-- C3 witness: the scenario's traced path `P→Q→T` is such a walk and
sums to `pathto[P] = 50`. -/
theorem C3_witness :
    ∃ q, cpNodes [⟨0, quoteLabel "P".toList, 0⟩, ⟨1, quoteLabel "Q".toList, 11⟩,
        ⟨3, quoteLabel "T".toList, 29⟩] = 0 :: q ∧
      List.Chain' sceneWG.edgeRel (0 :: q) ∧
      sceneWG.outEdges ((0 :: q).getLast (List.cons_ne_nil _ _)) = [] ∧
      ((0 :: q).map (sceneWG.nidPkgSize costA)).sum =
        computePathto sceneWG costA 0 0 :=
  C3_trace_walk sceneWG (by decide) sceneWG_acyclic costA 0 (by decide)
    sceneWG_reach (by decide)
    [⟨0, quoteLabel "P".toList, 0⟩, ⟨1, quoteLabel "Q".toList, 11⟩,
      ⟨3, quoteLabel "T".toList, 29⟩] (by decide)

/-- C4: for an acyclic well-formed graph, the reversed DFS postorder
produced by `topsort` contains only nodes reachable from the root, and
for every edge whose source appears in it the sink also appears, at a
strictly later position. -/
theorem C4_topsort_valid (g : ZGraph) (hwf : g.WF) (hacyc : g.Acyclic)
    (root : Nat) (hroot : root ∈ g.ids) :
    (∀ v ∈ topsort g root, v ∈ g.ids ∧ g.Reach root v) ∧
    (∀ e ∈ g.edges, e.src ∈ topsort g root →
      e.sink ∈ topsort g root ∧
      (topsort g root).indexOf e.src < (topsort g root).indexOf e.sink) := by
  obtain ⟨_, hmem, _, _⟩ := topsort_props g hwf hacyc root hroot
  exact ⟨hmem, topsort_index_lt g hwf hacyc root hroot⟩

/-- C4 witness: on the scenario graph `topsort = [0, 4, 1, 3, 2]`;
node 4 (`R`) is reachable, and the edge `P→Q` goes forward in the
listing. -/
theorem C4_witness :
    (4 ∈ sceneZG.ids ∧ sceneZG.Reach 0 4) ∧
    ((⟨0, 1, []⟩ : Edge).sink ∈ topsort sceneZG 0 ∧
      (topsort sceneZG 0).indexOf (⟨0, 1, []⟩ : Edge).src <
        (topsort sceneZG 0).indexOf (⟨0, 1, []⟩ : Edge).sink) :=
  ⟨(C4_topsort_valid sceneZG (by decide) sceneZG_acyclic 0 (by decide)).1 4
      (by decide),
    (C4_topsort_valid sceneZG (by decide) sceneZG_acyclic 0 (by decide)).2
      ⟨0, 1, []⟩ (by decide) (by decide)⟩

/-- C5: one reconstruction iteration panics exactly when the current
node has outgoing edges but the best candidate's `pathto` is zero
(given readable edge weights); conversely, when every node's own cost
is strictly positive, the reconstruction loop never reaches the panic
branch on a well-formed acyclic all-reachable graph. -/
theorem C5_panic_characterization :
    (∀ (g : ZGraph) (pathto : Nat → Nat) (cur : Nat),
      (∀ e ∈ g.outEdges cur, (EdgeWeight e).isOk = true) →
      (traceStep g pathto cur = StepRes.panic ↔
        (g.outEdges cur ≠ [] ∧ maxPt pathto (g.succs cur) = 0))) ∧
    (∀ (g : ZGraph) (cost : GoStr → Nat) (root : Nat), g.WF → g.Acyclic →
      root ∈ g.ids → (∀ n ∈ g.ids, g.Reach root n) →
      (∀ e ∈ g.edges, (EdgeWeight e).isOk = true) →
      (∀ v ∈ g.ids, 1 ≤ g.nidPkgSize cost v) →
      ∀ (fuel cur : Nat) (cp : List pathsegment), cur ∈ g.ids →
        traceLoop g (computePathto g cost root) fuel cur cp ≠
          TraceRes.panicked) := by
  constructor
  · intro g pathto cur hl
    exact traceStep_panic_iff g pathto cur
      (fun e he => exists_ok_of_isOk (hl e he))
  · intro g cost root hwf hacyc hroot hreach hlabels hpos fuel cur cp hcur
    exact traceLoop_no_panic g hwf hacyc cost root hroot hreach
      (fun e he => exists_ok_of_isOk (hlabels e he)) hpos fuel cur cp hcur

/-- A two-node graph whose single edge carries weight 0, driving the
reconstruction into the panic branch. -/
def panicZG : ZGraph :=
  ⟨[(0, quoteLabel ['a']), (1, quoteLabel ['b'])],
   [⟨0, 1, [("label", ['0'])]⟩]⟩

/-- C5 witness: the zero-`pathto` situation panics, and the scenario
graph (all costs positive) never panics. -/
theorem C5_witness :
    traceStep panicZG (fun _ => 0) 0 = StepRes.panic ∧
    traceLoop sceneWG (computePathto sceneWG costA 0) 6 0 [] ≠
      TraceRes.panicked :=
  ⟨(C5_panic_characterization.1 panicZG (fun _ => 0) 0 (by decide)).mpr
      (by decide),
    C5_panic_characterization.2 sceneWG costA 0 (by decide) sceneWG_acyclic
      (by decide) sceneWG_reach (by decide) (by decide) 6 0 [] (by decide)⟩

/-- C6: after weight assignment, reading any edge of the resulting
graph back through `EdgeWeight` yields exactly the resolved size of
the edge's sink node. -/
theorem C6_edge_weight_roundtrip (g : ZGraph) (cost : GoStr → Nat) (e : Edge)
    (he : e ∈ (computeEdgeWeights g cost).edges) :
    EdgeWeight e =
      Except.ok ((computeEdgeWeights g cost).nidPkgSize cost e.sink) :=
  computeEdgeWeights_read g cost e he

/-- C6 witness: the scenario's `Q→S` edge reads back S's size, 3. -/
theorem C6_witness :
    EdgeWeight (⟨1, 2, [("label", ['3'])]⟩ : Edge) =
      Except.ok ((computeEdgeWeights sceneZG costA).nidPkgSize costA 2) :=
  C6_edge_weight_roundtrip sceneZG costA ⟨1, 2, [("label", ['3'])]⟩ (by decide)

/-- C7: a fingerprint mismatch invalidates everything at once — the
probing call misses, the surviving disk state holds the new
fingerprint and no entry whatsoever, and any subsequent read of any
(kind, key) pair also misses. -/
theorem C7_invalidation_all_or_nothing (want v dir tag : GoStr) (fs : FS)
    (hv : fs.glofile = some v) (hne : v ≠ want) :
    (tryCache want dir tag fs).1 = none ∧
    (tryCache want dir tag fs).2.entries = [] ∧
    (tryCache want dir tag fs).2.glofile = some want ∧
    ∀ dir2 tag2 : GoStr,
      (tryCache want dir2 tag2 (tryCache want dir tag fs).2).1 = none := by
  obtain ⟨h1, h2, h3⟩ := tryCache_mismatch want v dir tag fs hv hne
  exact ⟨h1, by rw [h2], by rw [h2], h3⟩

/-- C7 witness: a cache holding one entry under fingerprint `a`,
probed under fingerprint `b`. -/
theorem C7_witness :
    (tryCache ['b'] ['d'] ['t']
      ⟨true, some ['a'], [(cachePath ['d'] ['t'], CacheVal.strv ['x'])]⟩).1 =
        none ∧
    (tryCache ['b'] ['d'] ['t']
      ⟨true, some ['a'], [(cachePath ['d'] ['t'], CacheVal.strv ['x'])]⟩).2.entries =
        [] ∧
    (tryCache ['b'] ['e'] ['u']
      (tryCache ['b'] ['d'] ['t']
        ⟨true, some ['a'], [(cachePath ['d'] ['t'], CacheVal.strv ['x'])]⟩).2).1 =
        none :=
  ⟨(C7_invalidation_all_or_nothing ['b'] ['a'] ['d'] ['t'] _ rfl (by decide)).1,
    (C7_invalidation_all_or_nothing ['b'] ['a'] ['d'] ['t'] _ rfl (by decide)).2.1,
    (C7_invalidation_all_or_nothing ['b'] ['a'] ['d'] ['t'] _ rfl
      (by decide)).2.2.2 ['e'] ['u']⟩

/-- C8: a repeated metadata (`goList`) or size (`pkgSize`) query for
the same identity returns the identical result with no further state
change, and the pair of calls performs at most one external
invocation: the second call is answered from the in-memory cache
populated by the first. -/
theorem C8_query_idempotence :
    (∀ (ext : GoStr → Option Pkg) (want dir : GoStr) (st st' : QState)
      (pk : Pkg), goList ext want dir st = (Except.ok pk, st') →
      goList ext want dir st' = (Except.ok pk, st') ∧
      st'.extCalls ≤ st.extCalls + 1) ∧
    (∀ (build : GoStr → Option (Nat × Nat)) (want dir goroot : GoStr)
      (st st' : QState) (pi : Nat × Nat),
      pkgSize build want dir goroot st = (Except.ok pi, st') →
      pkgSize build want dir goroot st' = (Except.ok pi, st') ∧
      st'.extCalls ≤ st.extCalls + 1) :=
  ⟨fun ext want dir st st' pk h => goList_idem ext want dir st st' pk h,
    fun build want dir goroot st st' pi h =>
      pkgSize_idem build want dir goroot st st' pi h⟩

/-- The state after a first `goList` call on an empty cache for the
oracle that always answers with the fixed package. -/
def qstate1 : QState :=
  ⟨[(['a'], ⟨false, ['a'], [], []⟩)], [],
    ⟨true, some ['f'],
      [(cachePath ['a'] "list".toList, CacheVal.pkgv ⟨false, ['a'], [], []⟩)]⟩, 1⟩

/-- C8 witness: on a fresh state, the second identical `goList` call
returns the same package and leaves the state fixed. -/
theorem C8_witness :
    goList (fun _ => some ⟨false, ['a'], [], []⟩) ['f'] ['a'] qstate1 =
      (Except.ok ⟨false, ['a'], [], []⟩, qstate1) ∧
    qstate1.extCalls ≤ (⟨[], [], ⟨false, none, []⟩, 0⟩ : QState).extCalls + 1 :=
  C8_query_idempotence.1 (fun _ => some ⟨false, ['a'], [], []⟩) ['f'] ['a']
    ⟨[], [], ⟨false, none, []⟩, 0⟩ qstate1 ⟨false, ['a'], [], []⟩ (by rfl)

/-- C9: starting from a builder state with one node per identity that
does not yet contain the target, `populateNode` never reaches the
re-insertion panic branch (each recursive call checks node existence
first), and any graph it returns still has one node per identity. -/
theorem C9_insert_once (golist : GoStr → Option Pkg) (inuns nostd : Bool)
    (fuel : Nat) (tgt : GoStr) (g : PGraph)
    (hnd : g.keys.Nodup) (hlk : g.nodes.lookup tgt = none) :
    populateNode golist inuns nostd fuel tgt g ≠ PopRes.panicInsert ∧
    ∀ snid g', populateNode golist inuns nostd fuel tgt g = PopRes.ok snid g' →
      g'.keys.Nodup := by
  have h := populateNode_popOk golist inuns nostd fuel tgt g hnd hlk
  exact ⟨h.1, fun snid g' heq => (h.2 snid g' heq).1⟩

/-- C9 witness: building the scenario graph from scratch panics
nowhere and yields duplicate-free identities. -/
theorem C9_witness :
    populateNode sceneList false false 6 "P".toList ⟨[], ⟨[], []⟩⟩ ≠
      PopRes.panicInsert ∧
    (PGraph.mk [("P".toList, 0), ("Q".toList, 1), ("S".toList, 2),
      ("T".toList, 3), ("R".toList, 4)] sceneZG).keys.Nodup :=
  ⟨(C9_insert_once sceneList false false 6 "P".toList ⟨[], ⟨[], []⟩⟩
      (by decide) (by decide)).1,
    (C9_insert_once sceneList false false 6 "P".toList ⟨[], ⟨[], []⟩⟩
      (by decide) (by decide)).2 0
      ⟨[("P".toList, 0), ("Q".toList, 1), ("S".toList, 2),
        ("T".toList, 3), ("R".toList, 4)], sceneZG⟩ (by decide)⟩

/-- C10: `pkgSize` special-cases `"unsafe"`: it answers size 1 and
zero functions with the process state (both cache tiers and the
invocation count) untouched; consequently any edge whose sink is the
`"unsafe"` node reads back weight 1 after weight assignment, provided
the size function resolves `"unsafe"` to 1. -/
theorem C10_unsafe_special :
    (∀ (build : GoStr → Option (Nat × Nat)) (want goroot : GoStr)
      (st : QState),
      pkgSize build want "unsafe".toList goroot st = (Except.ok (1, 0), st)) ∧
    (∀ (g : ZGraph) (cost : GoStr → Nat) (e : Edge),
      cost "unsafe".toList = 1 →
      e ∈ (computeEdgeWeights g cost).edges →
      g.labelOf e.sink = quoteLabel "unsafe".toList →
      EdgeWeight e = Except.ok 1) := by
  constructor
  · intro build want goroot st
    rw [pkgSize, if_pos rfl]
  · intro g cost e hcost he hlab
    have h := computeEdgeWeights_read g cost e he
    have hsize : (computeEdgeWeights g cost).nidPkgSize cost e.sink = 1 := by
      have hlab2 : (computeEdgeWeights g cost).labelOf e.sink =
          quoteLabel "unsafe".toList := hlab
      rw [ZGraph.nidPkgSize, hlab2, unquoteLabel_quoteLabel, hcost]
    rw [h, hsize]

/-- A miniature graph with an `"unsafe"` node (id 1). -/
def unsafeZG : ZGraph :=
  ⟨[(0, quoteLabel "main".toList), (1, quoteLabel "unsafe".toList)],
   [⟨0, 1, []⟩]⟩

/-- The size function induced by `pkgSize` on the miniature graph. -/
def costU : GoStr → Nat := fun p => if p = "unsafe".toList then 1 else 5

/-- C10 witness: the special case itself, and the weighted edge into
`"unsafe"` reading back 1. -/
theorem C10_witness :
    pkgSize (fun _ => none) ['f'] "unsafe".toList ['g']
        ⟨[], [], ⟨false, none, []⟩, 0⟩ =
      (Except.ok (1, 0), ⟨[], [], ⟨false, none, []⟩, 0⟩) ∧
    EdgeWeight (⟨0, 1, [("label", ['1'])]⟩ : Edge) = Except.ok 1 :=
  ⟨C10_unsafe_special.1 (fun _ => none) ['f'] ['g']
      ⟨[], [], ⟨false, none, []⟩, 0⟩,
    C10_unsafe_special.2 unsafeZG costU ⟨0, 1, [("label", ['1'])]⟩
      (by decide) (by decide) (by decide)⟩

end Pcritical
